import Mathlib

/-!
Verification of the timetable generation core (`src/Backend/solver.py`,
`generate_schedule`) and of the timeslot-index logic of
`src/Backend/app.py` (`get_all_solver_data`).

The CP-SAT solver itself is treated as a black box: an assignment of the
boolean decision variables is a function `Asg` from variable keys to
`Bool`, the hard constraints of the model are embedded as the predicate
`satisfies`, the soft "minimize changes" objective as `rewardScore`, and
the terminal behaviour of `generate_schedule` as the relation
`generate_schedule_rel` (the solver may return any constraint-satisfying,
objective-optimal assignment, or give up).
-/

namespace Timetable

/-- A timeslot coordinate `(day, slot-within-day)`, as produced by the
timeslot index of `app.py` and consumed by `solver.py`. -/
abbrev Slot := Nat × Nat

/-- A course record (`data["COURSES"]` element). -/
structure Course where
  id : Nat
  code : String
  name : String
  type : String
  enrollment : Int
  preferred_faculty : List Nat
deriving DecidableEq, Repr

/-- A faculty record (`data["FACULTY"]` element). -/
structure Faculty where
  id : Nat
  name : String
  availability : List Slot
deriving DecidableEq, Repr

/-- A room record (`data["ROOMS"]` element). -/
structure Room where
  id : Nat
  name : String
  capacity : Int
  type : String
deriving DecidableEq, Repr

/-- A student enrollment record (`data["STUDENT_ELECTIONS"]` element). -/
structure Election where
  student_id : Nat
  course_id : Nat
deriving DecidableEq, Repr

/-- The `data` dictionary unpacked at the top of `generate_schedule`. -/
structure SolverData where
  COURSES : List Course
  FACULTY : List Faculty
  ROOMS : List Room
  STUDENT_ELECTIONS : List Election
  ALL_TIMESLOTS : List Slot
deriving Repr

/-- One element of `temporary_constraints`. -/
structure TempConstraint where
  faculty_id : Nat
  day : Nat
  slot : Nat
deriving DecidableEq, Repr

/-- One entry of a produced (or previous) schedule:
`{day, slot, course, faculty, room}` with full records. -/
structure Entry where
  day : Nat
  slot : Nat
  course : Course
  faculty : Faculty
  room : Room
deriving DecidableEq, Repr

/-- The key of a decision variable in the `schedule` dictionary:
`(course id, faculty id, room id, timeslot)`. -/
abbrev Key := Nat × Nat × Nat × Slot

/-- An assignment of boolean values to the decision variables (the
solver's output, read back through `solver.Value`). -/
abbrev Asg := Key → Bool

/-- The eligibility filter of `solver.py` lines 31-34: the conjunction of
the four predicates deciding whether a decision variable is created for
the quadruple `(course, faculty, room, timeslot)`. -/
def eligible (c : Course) (f : Faculty) (r : Room) (t : Slot) : Bool :=
  c.preferred_faculty.contains f.id &&
  f.availability.contains t &&
  decide (c.enrollment ≤ r.capacity) &&
  decide (c.type = r.type)

/-- Key membership in the `schedule` variable dictionary built by the
nested loops of lines 26-37: the key `(cid, fid, rid, t)` is present
exactly when some records of those ids make the eligibility check pass
for a timeslot `t` drawn from `ALL_TIMESLOTS`. -/
def hasVar (d : SolverData) (cid fid rid : Nat) (t : Slot) : Bool :=
  d.COURSES.any fun c => c.id == cid &&
    (d.FACULTY.any fun f => f.id == fid &&
      (d.ROOMS.any fun r => r.id == rid &&
        (d.ALL_TIMESLOTS.any fun ts => ts == t && eligible c f r ts)))

/-- Sum of a `Nat`-valued function over a list (the shape of every
`sum(...)` generator expression in `solver.py`). -/
def nsum (l : List α) (g : α → Nat) : Nat := (l.map g).sum

/-- The contribution of the variable keyed `(cid, fid, rid, t)` to a
constraint sum under assignment `A`: its value if the key exists in the
dictionary, `0` if the generator's `if ... in schedule` guard skips it. -/
def varVal (d : SolverData) (A : Asg) (cid fid rid : Nat) (t : Slot) : Nat :=
  if hasVar d cid fid rid t && A (cid, fid, rid, t) then 1 else 0

/-- Constraint 1 sum (lines 45-54): for a course, the sum of all its
variables over faculty, rooms and timeslots. -/
def coverageSum (d : SolverData) (A : Asg) (c : Course) : Nat :=
  nsum d.FACULTY fun f => nsum d.ROOMS fun r => nsum d.ALL_TIMESLOTS fun t =>
    varVal d A c.id f.id r.id t

/-- Constraint 2 sum (lines 57-67): for a faculty and a timeslot, the sum
over courses and rooms. -/
def facSum (d : SolverData) (A : Asg) (f : Faculty) (t : Slot) : Nat :=
  nsum d.COURSES fun c => nsum d.ROOMS fun r => varVal d A c.id f.id r.id t

/-- Constraint 3 sum (lines 70-80): for a room and a timeslot, the sum
over courses and faculty. -/
def roomSum (d : SolverData) (A : Asg) (r : Room) (t : Slot) : Nat :=
  nsum d.COURSES fun c => nsum d.FACULTY fun f => varVal d A c.id f.id r.id t

/-- The `student_enrollments` map of lines 84-90, read back at one
student id: the course ids of that student's elections, in input order. -/
def enrolledCourses (es : List Election) (sid : Nat) : List Nat :=
  (es.filter fun e => e.student_id == sid).map Election.course_id

/-- Constraint 4 sum (lines 93-103): for a student and a timeslot, the
sum over that student's enrolled courses, faculty and rooms. -/
def studentSum (d : SolverData) (A : Asg) (sid : Nat) (t : Slot) : Nat :=
  nsum (enrolledCourses d.STUDENT_ELECTIONS sid) fun cid =>
    nsum d.FACULTY fun f => nsum d.ROOMS fun r => varVal d A cid f.id r.id t

/-- All hard constraints added to the model by `generate_schedule`
(lines 41-121): an assignment of the decision variables is acceptable to
the solver exactly when it satisfies this predicate. -/
def satisfies (d : SolverData) (tc : List TempConstraint) (A : Asg) : Prop :=
  (∀ c ∈ d.COURSES, coverageSum d A c = 1) ∧
  (∀ f ∈ d.FACULTY, ∀ t ∈ d.ALL_TIMESLOTS, facSum d A f t ≤ 1) ∧
  (∀ r ∈ d.ROOMS, ∀ t ∈ d.ALL_TIMESLOTS, roomSum d A r t ≤ 1) ∧
  (∀ sid : Nat, (d.STUDENT_ELECTIONS.any fun e => e.student_id == sid) = true →
    ∀ t ∈ d.ALL_TIMESLOTS, studentSum d A sid t ≤ 1) ∧
  (∀ k ∈ tc, ∀ c ∈ d.COURSES, ∀ r ∈ d.ROOMS,
    hasVar d c.id k.faculty_id r.id (k.day, k.slot) = true →
    A (c.id, k.faculty_id, r.id, (k.day, k.slot)) = false)

/-- The `old_schedule_map` of lines 134-136 read back at one course id:
the `(faculty id, room id, timeslot)` of the last entry of
`previous_schedule` carrying that course (later entries overwrite). -/
def oldKey (ps : List Entry) (cid : Nat) : Option (Nat × Nat × Slot) :=
  (ps.reverse.find? fun e => e.course.id == cid).map fun e =>
    (e.faculty.id, e.room.id, (e.day, e.slot))

/-- The variable keys that receive a reward indicator (lines 138-147):
one per course whose prior assignment is still an existing variable. -/
def rewardKeys (d : SolverData) (ps : List Entry) : List Key :=
  d.COURSES.filterMap fun c =>
    match oldKey ps c.id with
    | some (fid, rid, t) =>
      if hasVar d c.id fid rid t then some (c.id, fid, rid, t) else none
    | none => none

/-- The best objective value attainable over the reward indicators once
the decision variables are fixed to `A`: since each reward indicator is
only constrained by `reward ⇒ assignment held`, the maximizer sets it
true exactly when the prior assignment is held. -/
def rewardScore (d : SolverData) (ps : List Entry) (A : Asg) : Nat :=
  nsum (rewardKeys d ps) fun k => (A k).toNat

/-- The solver's verdict on an assignment when `Maximize` was called: it
satisfies the hard constraints and no satisfying assignment scores more. -/
def OptimalFor (d : SolverData) (tc : List TempConstraint) (ps : List Entry)
    (A : Asg) : Prop :=
  satisfies d tc A ∧ ∀ B, satisfies d tc B → rewardScore d ps B ≤ rewardScore d ps A

/-- Python-dict lookup in `{key x : x for x in l}` (lines 160-162): the
last record of `l` whose key is `k`; `dflt` when no record matches
(`generate_schedule` only ever looks up keys that are present). -/
def mapLookup (key : α → Nat) (l : List α) (k : Nat) (dflt : α) : α :=
  match l.reverse.find? fun x => key x == k with
  | some x => x
  | none => dflt

/-- The result entry appended at lines 172-178 for a true variable found
at records `(c, f, r)` and timeslot `t`. -/
def mkEntry (d : SolverData) (c : Course) (f : Faculty) (r : Room) (t : Slot) : Entry :=
  { day := t.1, slot := t.2,
    course := mapLookup Course.id d.COURSES c.id c,
    faculty := mapLookup Faculty.id d.FACULTY f.id f,
    room := mapLookup Room.id d.ROOMS r.id r }

/-- The `results` list built by the nested loops of lines 164-178, before
sorting. -/
def rawResults (d : SolverData) (A : Asg) : List Entry :=
  d.ALL_TIMESLOTS.flatMap fun t =>
    d.COURSES.flatMap fun c =>
      d.FACULTY.flatMap fun f =>
        d.ROOMS.flatMap fun r =>
          if hasVar d c.id f.id r.id t && A (c.id, f.id, r.id, t) then
            [mkEntry d c f r t]
          else []

/-- The sort order of line 180: ascending by the Python tuple
`(x["day"], x["slot"])`. -/
def entryLE (a b : Entry) : Bool :=
  a.day < b.day || (a.day == b.day && a.slot ≤ b.slot)

/-- The returned schedule for assignment `A`: `results` after the stable
sort of line 180. -/
def decode (d : SolverData) (A : Asg) : List Entry :=
  (rawResults d A).mergeSort entryLE

/-- The terminal statuses of the CP-SAT solve (spec section 4.5). -/
inductive CpStatus
  | optimal
  | feasible
  | infeasible
  | unknown
deriving DecidableEq, Repr

/-- Lines 157-185: the value returned by `generate_schedule` once the
solver finished with status `st` and variable values `A`. -/
def finish (st : CpStatus) (d : SolverData) (A : Asg) : Option (List Entry) :=
  match st with
  | .optimal => some (decode d A)
  | .feasible => some (decode d A)
  | .infeasible => none
  | .unknown => none

/-- Black-box model of a full `generate_schedule` call: some terminal
status and some assignment produced the output, where an `optimal` status
certifies constraint satisfaction and objective optimality, and a
`feasible` status certifies constraint satisfaction. -/
def generate_schedule_rel (d : SolverData) (tc : List TempConstraint)
    (ps : List Entry) (out : Option (List Entry)) : Prop :=
  ∃ st A, out = finish st d A ∧
    (st = CpStatus.optimal → OptimalFor d tc ps A) ∧
    (st = CpStatus.feasible → satisfies d tc A)

/-- Well-formed input data: record identifiers identify (each id list is
duplicate-free) and the timeslot list is duplicate-free, as guaranteed by
the primary keys of the data layer (`app.py`). -/
def WF (d : SolverData) : Prop :=
  (d.COURSES.map Course.id).Nodup ∧ (d.FACULTY.map Faculty.id).Nodup ∧
  (d.ROOMS.map Room.id).Nodup ∧ d.ALL_TIMESLOTS.Nodup

/-- The assignment that replays a previous schedule: a variable is true
exactly when its key is the key of some entry of `ps`. -/
def inducedAsg (ps : List Entry) : Asg := fun k =>
  ps.any fun e => (e.course.id, e.faculty.id, e.room.id, (e.day, e.slot)) == k

/-- A previous schedule drawn from the same data: every entry carries
records of the input lists, sits on a declared timeslot, and its key is
an existing decision variable ("every prior assignment is an eligible
quadruple"). -/
def PriorOK (d : SolverData) (ps : List Entry) : Prop :=
  ∀ e ∈ ps, e.course ∈ d.COURSES ∧ e.faculty ∈ d.FACULTY ∧ e.room ∈ d.ROOMS ∧
    (e.day, e.slot) ∈ d.ALL_TIMESLOTS ∧
    hasVar d e.course.id e.faculty.id e.room.id (e.day, e.slot) = true

/-! ### Timeslot index (`app.py`, `get_all_solver_data` lines 99-122) -/

/-- A raw `timeslot` table row as fetched by `app.py`. -/
structure TsRecord where
  id : Nat
  day_of_week : String
  start_time : Nat
deriving DecidableEq, Repr

/-- The `day_map` dictionary of line 100: `.get` returns `none` for day
labels outside the five recognized weekdays. -/
def dayMap (s : String) : Option Nat :=
  if s = "Mon" then some 0
  else if s = "Tue" then some 1
  else if s = "Wed" then some 2
  else if s = "Thu" then some 3
  else if s = "Fri" then some 4
  else none

/-- Increment the per-day slot counter (`slot_indices[day_num] += 1`). -/
def bumpCounter (ctr : Nat → Nat) (day : Nat) : Nat → Nat :=
  fun x => if x = day then ctr day + 1 else ctr x

/-- The loop of lines 106-120: walk the fetched rows, skip rows whose day
is unrecognized, and give each remaining row the coordinate
`(day, current per-day counter)`, bumping that day's counter. The result
is `timeslot_id_map` as an insertion-ordered association list. -/
def buildTimeslotMap : List TsRecord → (Nat → Nat) → List (Nat × Slot)
  | [], _ => []
  | ts :: rest, ctr =>
    match dayMap ts.day_of_week with
    | none => buildTimeslotMap rest ctr
    | some day => (ts.id, (day, ctr day)) :: buildTimeslotMap rest (bumpCounter ctr day)

/-- `timeslot_id_map` with all counters starting at `0` (line 104). -/
def timeslotIdMap (rows : List TsRecord) : List (Nat × Slot) :=
  buildTimeslotMap rows fun _ => 0

/-- `ALL_TIMESLOTS_AS_TUPLES = list(timeslot_id_map.values())` (line 122). -/
def allTimeslotTuples (rows : List TsRecord) : List Slot :=
  (timeslotIdMap rows).map Prod.snd

/-- Dictionary lookup in `timeslot_id_map` (the last binding of an id
wins, matching Python dict update semantics). -/
def tsLookup (m : List (Nat × Slot)) (i : Nat) : Option Slot :=
  (m.reverse.find? fun p => p.1 == i).map Prod.snd

/-- Lookup in `reverse_timeslot_map = {v: k for k, v in map.items()}`
(`app.py` line 202). -/
def tsReverseLookup (m : List (Nat × Slot)) (t : Slot) : Option Nat :=
  (m.reverse.find? fun p => p.2 == t).map Prod.fst

/-- The sort key MySQL uses for
`ORDER BY field(day_of_week, 'Mon', ..., 'Fri'), start_time` (line 66):
`field` yields `0` for unlisted labels and the 1-based position
otherwise. -/
def fieldOrder (s : String) : Nat :=
  match dayMap s with
  | some day => day + 1
  | none => 0

/-- The precondition of the timeslot index: rows arrive presorted by
(day order, start time), as the SQL query guarantees. -/
def Presorted (rows : List TsRecord) : Prop :=
  rows.Pairwise fun a b =>
    fieldOrder a.day_of_week < fieldOrder b.day_of_week ∨
    (fieldOrder a.day_of_week = fieldOrder b.day_of_week ∧ a.start_time ≤ b.start_time)

/-! ### Concrete instances used by witnesses and the counterexample -/

def course0 : Course :=
  { id := 1, code := "CS101", name := "Algorithms", type := "lecture",
    enrollment := 30, preferred_faculty := [1] }

def faculty0 : Faculty := { id := 1, name := "Ada", availability := [(0, 0)] }

def room0 : Room := { id := 1, name := "R1", capacity := 30, type := "lecture" }

def data0 : SolverData :=
  { COURSES := [course0], FACULTY := [faculty0], ROOMS := [room0],
    STUDENT_ELECTIONS := [], ALL_TIMESLOTS := [(0, 0)] }

def asg0 : Asg := fun k => k == (1, 1, 1, (0, 0))

def election1 : Election := { student_id := 7, course_id := 1 }

def data1 : SolverData := { data0 with STUDENT_ELECTIONS := [election1] }

def lock2 : TempConstraint := { faculty_id := 1, day := 0, slot := 0 }

def faculty2 : Faculty := { id := 1, name := "Ada", availability := [(0, 0), (0, 1)] }

def data2 : SolverData :=
  { COURSES := [course0], FACULTY := [faculty2], ROOMS := [room0],
    STUDENT_ELECTIONS := [], ALL_TIMESLOTS := [(0, 0), (0, 1)] }

def asg2 : Asg := fun k => k == (1, 1, 1, (0, 1))

def course3 : Course :=
  { id := 1, code := "CS101", name := "Algorithms", type := "lecture",
    enrollment := 30, preferred_faculty := [] }

def data3 : SolverData :=
  { COURSES := [course3], FACULTY := [faculty0], ROOMS := [room0],
    STUDENT_ELECTIONS := [], ALL_TIMESLOTS := [(0, 0)] }

def prodFRT (d : SolverData) : List (Faculty × Room × Slot) :=
  d.FACULTY.flatMap fun f => d.ROOMS.flatMap fun r =>
    d.ALL_TIMESLOTS.map fun t => (f, r, t)

/-- The variable key recorded in a schedule entry. -/
def keyOf (e : Entry) : Key := (e.course.id, e.faculty.id, e.room.id, (e.day, e.slot))

def course5a : Course :=
  { id := 1, code := "CS1", name := "A", type := "lecture",
    enrollment := 30, preferred_faculty := [1] }

def course5b : Course :=
  { id := 2, code := "CS2", name := "B", type := "lecture",
    enrollment := 30, preferred_faculty := [2] }

def faculty5a : Faculty := { id := 1, name := "F1", availability := [(0, 0)] }

def faculty5b : Faculty := { id := 2, name := "F2", availability := [(0, 0)] }

def room5a : Room := { id := 1, name := "R1", capacity := 30, type := "lecture" }

def room5b : Room := { id := 2, name := "R2", capacity := 30, type := "lecture" }

def data5 : SolverData :=
  { COURSES := [course5a, course5b], FACULTY := [faculty5a, faculty5b],
    ROOMS := [room5a, room5b], STUDENT_ELECTIONS := [],
    ALL_TIMESLOTS := [(0, 0)] }

def entry5a : Entry :=
  { day := 0, slot := 0, course := course5a, faculty := faculty5a, room := room5a }

def entry5b : Entry :=
  { day := 0, slot := 0, course := course5b, faculty := faculty5b, room := room5b }

/-- A feasible prior schedule whose two entries share the coordinate
`(0, 0)` and are listed with course 2 first. -/
def prior5 : List Entry := [entry5b, entry5a]

def entry0 : Entry :=
  { day := 0, slot := 0, course := course0, faculty := faculty0, room := room0 }

def prior0 : List Entry := [entry0]

def rows9 : List TsRecord :=
  [{ id := 13, day_of_week := "Sat", start_time := 9 },
   { id := 10, day_of_week := "Mon", start_time := 9 },
   { id := 11, day_of_week := "Mon", start_time := 10 },
   { id := 12, day_of_week := "Tue", start_time := 9 }]

/-! ### Helper lemmas about list sums -/

theorem nsum_nil (g : α → Nat) : nsum [] g = 0 := rfl

theorem nsum_cons (a : α) (l : List α) (g : α → Nat) :
    nsum (a :: l) g = g a + nsum l g := by
  simp [nsum]

theorem nsum_append (l m : List α) (g : α → Nat) :
    nsum (l ++ m) g = nsum l g + nsum m g := by
  simp [nsum]

theorem nsum_congr {l : List α} {g h : α → Nat} (H : ∀ x ∈ l, g x = h x) :
    nsum l g = nsum l h := by
  unfold nsum
  rw [List.map_congr_left H]

theorem nsum_zero (l : List α) : nsum l (fun _ => 0) = 0 := by
  induction l with
  | nil => rfl
  | cons a l ih => rw [nsum_cons, ih]

theorem nsum_le {l : List α} {g h : α → Nat} (H : ∀ x ∈ l, g x ≤ h x) :
    nsum l g ≤ nsum l h := by
  induction l with
  | nil => exact Nat.le_refl 0
  | cons a l ih =>
    rw [nsum_cons, nsum_cons]
    exact Nat.add_le_add (H a (List.mem_cons_self a l))
      (ih fun x hx => H x (List.mem_cons_of_mem a hx))

theorem nsum_add (l : List α) (g h : α → Nat) :
    nsum l (fun x => g x + h x) = nsum l g + nsum l h := by
  induction l with
  | nil => rfl
  | cons a l ih =>
    rw [nsum_cons, nsum_cons, nsum_cons, ih]
    omega

/-- Sums over two lists commute. -/
theorem nsum_swap (l : List α) (m : List β) (g : α → β → Nat) :
    nsum l (fun x => nsum m (g x)) = nsum m (fun y => nsum l (g · y)) := by
  induction l with
  | nil =>
    rw [nsum_nil]
    exact (nsum_zero m).symm
  | cons a l ih =>
    rw [nsum_cons, ih, ← nsum_add]
    refine nsum_congr fun y _ => ?_
    rw [nsum_cons]

/-- A condition not depending on the summation variable factors out. -/
theorem nsum_ite_const (l : List α) (c : Prop) [Decidable c] (h : α → Nat) :
    nsum l (fun x => if c then h x else 0) = if c then nsum l h else 0 := by
  by_cases hc : c
  · simp only [hc, if_true]
  · simp only [hc, if_false, nsum_zero]

/-- Extracting the unique summand selected by a key equality, when the
keys of the list are duplicate-free. -/
theorem nsum_extract {κ : Type _} [DecidableEq κ] (key : α → κ) (l : List α)
    (hnd : (l.map key).Nodup) (x₀ : α) (hx : x₀ ∈ l) (h : α → Nat) :
    nsum l (fun x => if key x = key x₀ then h x else 0) = h x₀ := by
  induction l with
  | nil => cases hx
  | cons a l ih =>
    rw [List.map_cons, List.nodup_cons] at hnd
    rw [nsum_cons]
    rcases List.mem_cons.mp hx with h₀ | h₀
    · subst h₀
      have hz : ∀ x ∈ l, (if key x = key x₀ then h x else 0) = 0 := by
        intro x hxl
        have hne : key x ≠ key x₀ := by
          intro he
          exact hnd.1 (he ▸ List.mem_map_of_mem key hxl)
        simp [hne]
      rw [nsum_congr hz, nsum_zero, if_pos rfl, Nat.add_zero]
    · have hne : key a ≠ key x₀ := by
        intro he
        exact hnd.1 (he ▸ List.mem_map_of_mem key h₀)
      rw [if_neg hne, ih hnd.2 h₀, Nat.zero_add]

/-- A keyed sum vanishes when no element carries the key. -/
theorem nsum_extract_none {κ : Type _} [DecidableEq κ] (key : α → κ) (l : List α)
    (k : κ) (hk : ∀ x ∈ l, key x ≠ k) (h : α → Nat) :
    nsum l (fun x => if key x = k then h x else 0) = 0 := by
  have : ∀ x ∈ l, (if key x = k then h x else 0) = 0 := by
    intro x hx
    simp [hk x hx]
  rw [nsum_congr this, nsum_zero]

/-- `countP` distributes over `flatMap` as a sum of counts. -/
theorem countP_flatMap (l : List α) (f : α → List β) (p : β → Bool) :
    (l.flatMap f).countP p = nsum l (fun x => (f x).countP p) := by
  induction l with
  | nil => rfl
  | cons a l ih =>
    rw [List.flatMap_cons, List.countP_append, ih, nsum_cons]

theorem countP_le_length (l : List α) (p : α → Bool) : l.countP p ≤ l.length :=
  List.countP_le_length p

theorem ite_one_of_and (P Q : Prop) [Decidable P] [Decidable Q] :
    (if P ∧ Q then (1 : Nat) else 0) = if Q then (if P then 1 else 0) else 0 := by
  by_cases hP : P <;> by_cases hQ : Q <;> simp [hP, hQ]

theorem ite_one_nested (P Q : Prop) [Decidable P] [Decidable Q] (n : Nat) :
    (if P ∧ Q then n else 0) = if P then (if Q then n else 0) else 0 := by
  by_cases hP : P <;> by_cases hQ : Q <;> simp [hP, hQ]

/-! ### Properties of the decoder -/

theorem mapLookup_key (key : α → Nat) (l : List α) (k : Nat) (dflt : α)
    (hd : key dflt = k) : key (mapLookup key l k dflt) = k := by
  unfold mapLookup
  cases hfound : l.reverse.find? fun x => key x == k with
  | none => exact hd
  | some x => simpa using List.find?_some hfound

theorem mapLookup_mem (key : α → Nat) (l : List α) (k : Nat) (dflt : α)
    (hd : dflt ∈ l) : mapLookup key l k dflt ∈ l := by
  unfold mapLookup
  cases hfound : l.reverse.find? fun x => key x == k with
  | none => exact hd
  | some x => exact List.mem_reverse.mp (List.mem_of_find?_eq_some hfound)

theorem mapLookup_self (key : α → Nat) (l : List α) (hnd : (l.map key).Nodup)
    (x : α) (hx : x ∈ l) (dflt : α) : mapLookup key l (key x) dflt = x := by
  unfold mapLookup
  cases hfound : l.reverse.find? fun y => key y == key x with
  | none =>
    exfalso
    have hnx := List.find?_eq_none.mp hfound x (List.mem_reverse.mpr hx)
    simp at hnx
  | some y =>
    have hy : y ∈ l := List.mem_reverse.mp (List.mem_of_find?_eq_some hfound)
    have hk : key y = key x := by simpa using List.find?_some hfound
    exact List.inj_on_of_nodup_map hnd hy hx hk

theorem mkEntry_day (d : SolverData) (c : Course) (f : Faculty) (r : Room)
    (t : Slot) : (mkEntry d c f r t).day = t.1 := rfl

theorem mkEntry_slot (d : SolverData) (c : Course) (f : Faculty) (r : Room)
    (t : Slot) : (mkEntry d c f r t).slot = t.2 := rfl

theorem mkEntry_course_id (d : SolverData) (c : Course) (f : Faculty) (r : Room)
    (t : Slot) : (mkEntry d c f r t).course.id = c.id :=
  mapLookup_key Course.id d.COURSES c.id c rfl

theorem mkEntry_faculty_id (d : SolverData) (c : Course) (f : Faculty) (r : Room)
    (t : Slot) : (mkEntry d c f r t).faculty.id = f.id :=
  mapLookup_key Faculty.id d.FACULTY f.id f rfl

theorem mkEntry_room_id (d : SolverData) (c : Course) (f : Faculty) (r : Room)
    (t : Slot) : (mkEntry d c f r t).room.id = r.id :=
  mapLookup_key Room.id d.ROOMS r.id r rfl

theorem countP_ite_cons (G : Bool) (e : β) (p : β → Bool) :
    (if G then [e] else []).countP p = if G = true ∧ p e = true then 1 else 0 := by
  cases G with
  | false => simp
  | true =>
    by_cases hp : p e = true
    · simp [hp]
    · simp [hp]

/-- The count of decoded entries matching a predicate, as a nested sum in
the iteration order of lines 165-178. -/
theorem countP_rawResults (d : SolverData) (A : Asg) (p : Entry → Bool) :
    (rawResults d A).countP p =
      nsum d.ALL_TIMESLOTS fun t => nsum d.COURSES fun c =>
        nsum d.FACULTY fun f => nsum d.ROOMS fun r =>
          if (hasVar d c.id f.id r.id t && A (c.id, f.id, r.id, t)) = true ∧
              p (mkEntry d c f r t) = true then 1 else 0 := by
  unfold rawResults
  rw [countP_flatMap]
  refine nsum_congr fun t _ => ?_
  rw [countP_flatMap]
  refine nsum_congr fun c _ => ?_
  rw [countP_flatMap]
  refine nsum_congr fun f _ => ?_
  rw [countP_flatMap]
  refine nsum_congr fun r _ => ?_
  exact countP_ite_cons _ _ p

theorem countP_decode (d : SolverData) (A : Asg) (p : Entry → Bool) :
    (decode d A).countP p = (rawResults d A).countP p :=
  ((rawResults d A).mergeSort_perm entryLE).countP_eq p

/-- Whenever `generate_schedule` returns a schedule, some hard-constraint
satisfying assignment decodes to it. -/
theorem satisfies_of_some {d : SolverData} {tc : List TempConstraint}
    {ps res : List Entry} {out : Option (List Entry)}
    (hrel : generate_schedule_rel d tc ps out) (hout : out = some res) :
    ∃ A, satisfies d tc A ∧ res = decode d A := by
  obtain ⟨st, A, hfin, hopt, hfeas⟩ := hrel
  rw [hout] at hfin
  cases st with
  | optimal => exact ⟨A, (hopt rfl).1, Option.some.inj hfin⟩
  | feasible => exact ⟨A, hfeas rfl, Option.some.inj hfin⟩
  | infeasible => cases hfin
  | unknown => cases hfin

/-- With well-formed ids, the number of decoded entries referencing a
given course is exactly that course's coverage-constraint sum. -/
theorem count_course (d : SolverData) (A : Asg) (hwf : WF d) (c : Course)
    (hc : c ∈ d.COURSES) :
    (rawResults d A).countP (fun e => e.course.id == c.id) = coverageSum d A c := by
  rw [countP_rawResults]
  have inner : ∀ t, ∀ c' ∈ d.COURSES,
      (nsum d.FACULTY fun f => nsum d.ROOMS fun r =>
        if (hasVar d c'.id f.id r.id t && A (c'.id, f.id, r.id, t)) = true ∧
            ((mkEntry d c' f r t).course.id == c.id) = true then 1 else 0) =
      if c'.id = c.id then
        (nsum d.FACULTY fun f => nsum d.ROOMS fun r => varVal d A c'.id f.id r.id t)
      else 0 := by
    intro t c' _
    simp only [mkEntry_course_id, beq_iff_eq, ite_one_of_and, varVal, nsum_ite_const]
  calc
    (nsum d.ALL_TIMESLOTS fun t => nsum d.COURSES fun c' =>
      nsum d.FACULTY fun f => nsum d.ROOMS fun r =>
        if (hasVar d c'.id f.id r.id t && A (c'.id, f.id, r.id, t)) = true ∧
            ((mkEntry d c' f r t).course.id == c.id) = true then 1 else 0)
        = nsum d.ALL_TIMESLOTS fun t =>
            nsum d.FACULTY fun f => nsum d.ROOMS fun r => varVal d A c.id f.id r.id t := by
          refine nsum_congr fun t _ => ?_
          rw [nsum_congr (inner t)]
          exact nsum_extract Course.id d.COURSES hwf.1 c hc _
    _ = coverageSum d A c := by
          rw [nsum_swap]
          refine nsum_congr fun f _ => ?_
          rw [nsum_swap]

/-- C1: every course is referenced by exactly one entry of any returned
schedule (coverage law). -/
theorem C1_course_coverage (d : SolverData) (tc : List TempConstraint)
    (ps : List Entry) (out : Option (List Entry)) (res : List Entry)
    (hwf : WF d) (hrel : generate_schedule_rel d tc ps out)
    (hout : out = some res) :
    ∀ c ∈ d.COURSES, res.countP (fun e => e.course.id == c.id) = 1 := by
  obtain ⟨A, hsat, hres⟩ := satisfies_of_some hrel hout
  intro c hc
  rw [hres, countP_decode, count_course d A hwf c hc]
  exact hsat.1 c hc

/-! ### Concrete witness data (the concrete scenario of spec section 8) -/

theorem satisfies0 : satisfies data0 [] asg0 := by
  refine ⟨by decide, by decide, by decide, ?_, ?_⟩
  · intro sid h
    simp [data0] at h
  · intro k hk
    simp at hk

theorem rel0 : generate_schedule_rel data0 [] [] (some (decode data0 asg0)) :=
  ⟨CpStatus.feasible, asg0, rfl,
    by intro h; exact absurd h (by decide), fun _ => satisfies0⟩

theorem wf0 : WF data0 := ⟨by decide, by decide, by decide, by decide⟩

theorem C1_course_coverage_witness :
    (decode data0 asg0).countP (fun e => e.course.id == course0.id) = 1 :=
  C1_course_coverage data0 [] [] (some (decode data0 asg0)) (decode data0 asg0)
    wf0 rel0 rfl course0 (by decide)

theorem nsum_extract_self {κ : Type _} [DecidableEq κ] (l : List κ)
    (hnd : l.Nodup) (x₀ : κ) (hx : x₀ ∈ l) (h : κ → Nat) :
    nsum l (fun x => if x = x₀ then h x else 0) = h x₀ := by
  have hni : (l.map fun x => x).Nodup := by simpa using hnd
  simpa using nsum_extract (fun x => x) l hni x₀ hx h

theorem nsum_extract_self_none {κ : Type _} [DecidableEq κ] (l : List κ)
    (x₀ : κ) (hx : x₀ ∉ l) (h : κ → Nat) :
    nsum l (fun x => if x = x₀ then h x else 0) = 0 :=
  nsum_extract_none (fun x => x) l x₀ (fun x hxl he => hx (he ▸ hxl)) h

/-- The number of decoded entries using a given faculty id at a given
coordinate is bounded by the faculty-exclusivity constraint. -/
theorem count_faculty_le (d : SolverData) (tc : List TempConstraint) (A : Asg)
    (hwf : WF d) (hsat : satisfies d tc A) (fid day slot : Nat) :
    (rawResults d A).countP
      (fun e => e.faculty.id == fid && e.day == day && e.slot == slot) ≤ 1 := by
  rw [countP_rawResults]
  have point : ∀ (t : Slot) (c : Course) (f : Faculty) (r : Room),
      (if (hasVar d c.id f.id r.id t && A (c.id, f.id, r.id, t)) = true ∧
          ((mkEntry d c f r t).faculty.id == fid && (mkEntry d c f r t).day == day &&
            (mkEntry d c f r t).slot == slot) = true then 1 else 0) =
      if t = (day, slot) then
        (if Faculty.id f = fid then varVal d A c.id f.id r.id t else 0)
      else 0 := by
    intro t c f r
    rcases t with ⟨td, ts⟩
    simp only [mkEntry_faculty_id, mkEntry_day, mkEntry_slot, Bool.and_eq_true,
      beq_iff_eq, varVal, Prod.mk.injEq]
    by_cases h1 : td = day <;> by_cases h2 : ts = slot <;>
      by_cases h3 : f.id = fid <;> simp [h1, h2, h3]
  rw [nsum_congr fun t _ => nsum_congr fun c _ => nsum_congr fun f _ =>
    nsum_congr fun r _ => point t c f r]
  simp only [nsum_ite_const]
  by_cases hf : ∃ f₀ ∈ d.FACULTY, f₀.id = fid
  · obtain ⟨f₀, hf₀, hid⟩ := hf
    rw [← hid]
    have hstep : ∀ t, (nsum d.COURSES fun c => nsum d.FACULTY fun f =>
        if Faculty.id f = Faculty.id f₀ then nsum d.ROOMS fun r =>
          varVal d A c.id f.id r.id t else 0) = facSum d A f₀ t := by
      intro t
      refine nsum_congr fun c _ => ?_
      exact nsum_extract Faculty.id d.FACULTY hwf.2.1 f₀ hf₀ _
    rw [nsum_congr fun t _ => by rw [hstep t]]
    by_cases ht : (day, slot) ∈ d.ALL_TIMESLOTS
    · rw [nsum_extract_self d.ALL_TIMESLOTS hwf.2.2.2 (day, slot) ht _]
      exact hsat.2.1 f₀ hf₀ (day, slot) ht
    · rw [nsum_extract_self_none d.ALL_TIMESLOTS (day, slot) ht _]
      exact Nat.zero_le 1
  · push_neg at hf
    have hz : ∀ t, (nsum d.COURSES fun c => nsum d.FACULTY fun f =>
        if Faculty.id f = fid then nsum d.ROOMS fun r =>
          varVal d A c.id f.id r.id t else 0) = 0 := by
      intro t
      rw [nsum_congr fun c _ =>
        nsum_extract_none Faculty.id d.FACULTY fid (fun f hfl => hf f hfl) _]
      exact nsum_zero d.COURSES
    rw [nsum_congr fun t _ => by rw [hz t]]
    simp only [ite_self, nsum_zero]
    exact Nat.zero_le 1

/-- The number of decoded entries using a given room id at a given
coordinate is bounded by the room-exclusivity constraint. -/
theorem count_room_le (d : SolverData) (tc : List TempConstraint) (A : Asg)
    (hwf : WF d) (hsat : satisfies d tc A) (rid day slot : Nat) :
    (rawResults d A).countP
      (fun e => e.room.id == rid && e.day == day && e.slot == slot) ≤ 1 := by
  rw [countP_rawResults]
  have point : ∀ (t : Slot) (c : Course) (f : Faculty) (r : Room),
      (if (hasVar d c.id f.id r.id t && A (c.id, f.id, r.id, t)) = true ∧
          ((mkEntry d c f r t).room.id == rid && (mkEntry d c f r t).day == day &&
            (mkEntry d c f r t).slot == slot) = true then 1 else 0) =
      if t = (day, slot) then
        (if Room.id r = rid then varVal d A c.id f.id r.id t else 0)
      else 0 := by
    intro t c f r
    rcases t with ⟨td, ts⟩
    simp only [mkEntry_room_id, mkEntry_day, mkEntry_slot, Bool.and_eq_true,
      beq_iff_eq, varVal, Prod.mk.injEq]
    by_cases h1 : td = day <;> by_cases h2 : ts = slot <;>
      by_cases h3 : r.id = rid <;> simp [h1, h2, h3]
  rw [nsum_congr fun t _ => nsum_congr fun c _ => nsum_congr fun f _ =>
    nsum_congr fun r _ => point t c f r]
  simp only [nsum_ite_const]
  by_cases hr : ∃ r₀ ∈ d.ROOMS, r₀.id = rid
  · obtain ⟨r₀, hr₀, hid⟩ := hr
    rw [← hid]
    have hstep : ∀ t, (nsum d.COURSES fun c => nsum d.FACULTY fun f =>
        nsum d.ROOMS fun r => if Room.id r = Room.id r₀ then
          varVal d A c.id f.id r.id t else 0) = roomSum d A r₀ t := by
      intro t
      refine nsum_congr fun c _ => nsum_congr fun f _ => ?_
      exact nsum_extract Room.id d.ROOMS hwf.2.2.1 r₀ hr₀ _
    rw [nsum_congr fun t _ => by rw [hstep t]]
    by_cases ht : (day, slot) ∈ d.ALL_TIMESLOTS
    · rw [nsum_extract_self d.ALL_TIMESLOTS hwf.2.2.2 (day, slot) ht _]
      exact hsat.2.2.1 r₀ hr₀ (day, slot) ht
    · rw [nsum_extract_self_none d.ALL_TIMESLOTS (day, slot) ht _]
      exact Nat.zero_le 1
  · push_neg at hr
    have hz : ∀ t, (nsum d.COURSES fun c => nsum d.FACULTY fun f =>
        nsum d.ROOMS fun r => if Room.id r = rid then
          varVal d A c.id f.id r.id t else 0) = 0 := by
      intro t
      rw [nsum_congr fun c _ => nsum_congr fun f _ =>
        nsum_extract_none Room.id d.ROOMS rid (fun r hrl => hr r hrl) _]
      rw [nsum_congr fun c _ => nsum_zero d.FACULTY]
      exact nsum_zero d.COURSES
    rw [nsum_congr fun t _ => by rw [hz t]]
    simp only [ite_self, nsum_zero]
    exact Nat.zero_le 1

/-- C2: no resource is double-booked in a returned schedule: at most one
entry uses a given faculty id at a given coordinate, and at most one
entry uses a given room id at a given coordinate. -/
theorem C2_no_double_booking (d : SolverData) (tc : List TempConstraint)
    (ps : List Entry) (out : Option (List Entry)) (res : List Entry)
    (hwf : WF d) (hrel : generate_schedule_rel d tc ps out)
    (hout : out = some res) :
    (∀ fid day slot : Nat, res.countP
      (fun e => e.faculty.id == fid && e.day == day && e.slot == slot) ≤ 1) ∧
    (∀ rid day slot : Nat, res.countP
      (fun e => e.room.id == rid && e.day == day && e.slot == slot) ≤ 1) := by
  obtain ⟨A, hsat, hres⟩ := satisfies_of_some hrel hout
  subst hres
  constructor
  · intro fid day slot
    rw [countP_decode]
    exact count_faculty_le d tc A hwf hsat fid day slot
  · intro rid day slot
    rw [countP_decode]
    exact count_room_le d tc A hwf hsat rid day slot

theorem C2_no_double_booking_witness :
    (decode data0 asg0).countP
      (fun e => e.faculty.id == 1 && e.day == 0 && e.slot == 0) ≤ 1 ∧
    (decode data0 asg0).countP
      (fun e => e.room.id == 1 && e.day == 0 && e.slot == 0) ≤ 1 :=
  ⟨(C2_no_double_booking data0 [] [] (some (decode data0 asg0))
      (decode data0 asg0) wf0 rel0 rfl).1 1 0 0,
   (C2_no_double_booking data0 [] [] (some (decode data0 asg0))
      (decode data0 asg0) wf0 rel0 rfl).2 1 0 0⟩

theorem le_nsum (l : List α) (x : α) (hx : x ∈ l) (g : α → Nat) :
    g x ≤ nsum l g := by
  induction l with
  | nil => cases hx
  | cons a l ih =>
    rw [nsum_cons]
    rcases List.mem_cons.mp hx with h | h
    · subst h
      exact Nat.le_add_right _ _
    · exact Nat.le_trans (ih h) (Nat.le_add_left _ _)

/-- A keyed sum over duplicate-free records, restricted to keys drawn
from `ids`, is bounded by the sum over `ids` (which may repeat keys). -/
theorem nsum_key_mem_le (l : List α) (key : α → Nat)
    (hnd : (l.map key).Nodup) (ids : List Nat) (g : Nat → Nat) :
    nsum l (fun x => if key x ∈ ids then g (key x) else 0) ≤ nsum ids g := by
  induction l generalizing ids with
  | nil => exact Nat.zero_le _
  | cons a l ih =>
    rw [List.map_cons, List.nodup_cons] at hnd
    rw [nsum_cons]
    by_cases hm : key a ∈ ids
    · rw [if_pos hm]
      have hperm : List.Perm ids (key a :: ids.erase (key a)) :=
        List.perm_cons_erase hm
      have hsum : nsum ids g = g (key a) + nsum (ids.erase (key a)) g := by
        unfold nsum
        rw [(hperm.map g).sum_eq]
        simp
      rw [hsum]
      refine Nat.add_le_add_left ?_ _
      have hcongr : ∀ x ∈ l,
          (if key x ∈ ids then g (key x) else 0) =
          (if key x ∈ ids.erase (key a) then g (key x) else 0) := by
        intro x hxl
        have hne : key x ≠ key a := fun he => hnd.1 (he ▸ List.mem_map_of_mem key hxl)
        rw [if_congr (List.mem_erase_of_ne hne).symm rfl rfl]
      rw [nsum_congr hcongr]
      exact ih hnd.2 (ids.erase (key a))
    · rw [if_neg hm, Nat.zero_add]
      exact ih hnd.2 ids

/-- Unfolding of key existence in the variable dictionary. -/
theorem hasVar_spec (d : SolverData) (cid fid rid : Nat) (t : Slot) :
    hasVar d cid fid rid t = true ↔
    ∃ c ∈ d.COURSES, c.id = cid ∧ ∃ f ∈ d.FACULTY, f.id = fid ∧
      ∃ r ∈ d.ROOMS, r.id = rid ∧ t ∈ d.ALL_TIMESLOTS ∧ eligible c f r t = true := by
  unfold hasVar
  simp only [List.any_eq_true, Bool.and_eq_true, beq_iff_eq]
  constructor
  · rintro ⟨c, hc, hcid, f, hf, hfid, r, hr, hrid, ts, hts, htse, he⟩
    exact ⟨c, hc, hcid, f, hf, hfid, r, hr, hrid, htse ▸ hts, htse ▸ he⟩
  · rintro ⟨c, hc, hcid, f, hf, hfid, r, hr, hrid, hts, he⟩
    exact ⟨c, hc, hcid, f, hf, hfid, r, hr, hrid, t, hts, rfl, he⟩

/-- If no course record carries id `cid`, no variable keyed `cid` exists. -/
theorem hasVar_course_none (d : SolverData) (cid fid rid : Nat) (t : Slot)
    (hn : ∀ c ∈ d.COURSES, c.id ≠ cid) : hasVar d cid fid rid t = false := by
  by_contra h
  rw [Bool.not_eq_false, hasVar_spec] at h
  obtain ⟨c, hc, hcid, _⟩ := h
  exact hn c hc hcid

/-- The number of decoded entries at a coordinate whose course belongs
to a student's enrollment is bounded by that student's constraint sum. -/
theorem count_student_le (d : SolverData) (tc : List TempConstraint) (A : Asg)
    (hwf : WF d) (hsat : satisfies d tc A) (sid : Nat)
    (happ : (d.STUDENT_ELECTIONS.any fun e => e.student_id == sid) = true)
    (day slot : Nat) :
    (rawResults d A).countP (fun e =>
      (enrolledCourses d.STUDENT_ELECTIONS sid).contains e.course.id &&
      e.day == day && e.slot == slot) ≤ 1 := by
  rw [countP_rawResults]
  have point : ∀ (t : Slot) (c : Course) (f : Faculty) (r : Room),
      (if (hasVar d c.id f.id r.id t && A (c.id, f.id, r.id, t)) = true ∧
          ((enrolledCourses d.STUDENT_ELECTIONS sid).contains
              (mkEntry d c f r t).course.id &&
            (mkEntry d c f r t).day == day &&
            (mkEntry d c f r t).slot == slot) = true then 1 else 0) =
      if t = (day, slot) then
        (if Course.id c ∈ enrolledCourses d.STUDENT_ELECTIONS sid then
          varVal d A c.id f.id r.id t else 0)
      else 0 := by
    intro t c f r
    rcases t with ⟨td, ts⟩
    simp only [mkEntry_course_id, mkEntry_day, mkEntry_slot, Bool.and_eq_true,
      beq_iff_eq, varVal, Prod.mk.injEq, List.contains, List.elem_eq_mem,
      decide_eq_true_eq]
    by_cases h1 : td = day <;> by_cases h2 : ts = slot <;>
      by_cases h3 : Course.id c ∈ enrolledCourses d.STUDENT_ELECTIONS sid <;>
      simp [h1, h2, h3]
  rw [nsum_congr fun t _ => nsum_congr fun c _ => nsum_congr fun f _ =>
    nsum_congr fun r _ => point t c f r]
  simp only [nsum_ite_const]
  by_cases ht : (day, slot) ∈ d.ALL_TIMESLOTS
  · rw [nsum_extract_self d.ALL_TIMESLOTS hwf.2.2.2 (day, slot) ht _]
    refine Nat.le_trans ?_ (hsat.2.2.2.1 sid happ (day, slot) ht)
    unfold studentSum
    exact nsum_key_mem_le d.COURSES Course.id hwf.1
      (enrolledCourses d.STUDENT_ELECTIONS sid)
      (fun cid => nsum d.FACULTY fun f => nsum d.ROOMS fun r =>
        varVal d A cid f.id r.id (day, slot))
  · rw [nsum_extract_self_none d.ALL_TIMESLOTS (day, slot) ht _]
    exact Nat.zero_le 1

/-- A student with zero or one enrolled course is already protected by
the coverage constraint alone: the student constraint is vacuous. -/
theorem studentSum_le_of_coverage (d : SolverData) (B : Asg)
    (hcov : ∀ c ∈ d.COURSES, coverageSum d B c = 1) (sid : Nat)
    (hlen : (enrolledCourses d.STUDENT_ELECTIONS sid).length ≤ 1)
    (t : Slot) (ht : t ∈ d.ALL_TIMESLOTS) : studentSum d B sid t ≤ 1 := by
  unfold studentSum
  cases hels : enrolledCourses d.STUDENT_ELECTIONS sid with
  | nil =>
    rw [nsum_nil]
    exact Nat.zero_le 1
  | cons cid rest =>
    have hrest : rest = [] := by
      rw [hels] at hlen
      simpa using Nat.le_of_succ_le_succ hlen
    subst hrest
    rw [nsum_cons, nsum_nil, Nat.add_zero]
    by_cases hc : ∃ c₀ ∈ d.COURSES, c₀.id = cid
    · obtain ⟨c₀, hc₀, hid⟩ := hc
      subst hid
      refine Nat.le_trans ?_ (Nat.le_of_eq (hcov c₀ hc₀))
      unfold coverageSum
      refine nsum_le fun f _ => nsum_le fun r _ => ?_
      exact le_nsum d.ALL_TIMESLOTS t ht _
    · push_neg at hc
      have hv : ∀ (f : Faculty) (r : Room), varVal d B cid f.id r.id t = 0 := by
        intro f r
        unfold varVal
        rw [hasVar_course_none d cid f.id r.id t hc]
        simp
      rw [nsum_congr fun f _ => nsum_congr fun r _ => hv f r]
      rw [nsum_congr fun f _ => nsum_zero d.ROOMS, nsum_zero]
      exact Nat.zero_le 1

/-- C3: for every student appearing in the enrollment records and every
coordinate, at most one entry of a returned schedule carries one of that
student's enrolled courses; moreover, for a student with zero or one
enrolled courses the constraint is implied by coverage alone (no
effective constraint). -/
theorem C3_student_conflict (d : SolverData) (tc : List TempConstraint)
    (ps : List Entry) (out : Option (List Entry)) (res : List Entry)
    (hwf : WF d) (hrel : generate_schedule_rel d tc ps out)
    (hout : out = some res) :
    (∀ sid : Nat, (d.STUDENT_ELECTIONS.any fun e => e.student_id == sid) = true →
      ∀ day slot : Nat, res.countP (fun e =>
        (enrolledCourses d.STUDENT_ELECTIONS sid).contains e.course.id &&
        e.day == day && e.slot == slot) ≤ 1) ∧
    (∀ B : Asg, (∀ c ∈ d.COURSES, coverageSum d B c = 1) →
      ∀ sid : Nat, (enrolledCourses d.STUDENT_ELECTIONS sid).length ≤ 1 →
      ∀ t ∈ d.ALL_TIMESLOTS, studentSum d B sid t ≤ 1) := by
  obtain ⟨A, hsat, hres⟩ := satisfies_of_some hrel hout
  subst hres
  refine ⟨?_, ?_⟩
  · intro sid happ day slot
    rw [countP_decode]
    exact count_student_le d tc A hwf hsat sid happ day slot
  · intro B hcov sid hlen t ht
    exact studentSum_le_of_coverage d B hcov sid hlen t ht

theorem satisfies1 : satisfies data1 [] asg0 := by
  refine ⟨by decide, by decide, by decide, ?_, ?_⟩
  · intro sid h
    simp [data1, election1] at h
    subst h
    decide
  · intro k hk
    simp at hk

theorem rel1 : generate_schedule_rel data1 [] [] (some (decode data1 asg0)) :=
  ⟨CpStatus.feasible, asg0, rfl,
    by intro h; exact absurd h (by decide), fun _ => satisfies1⟩

theorem wf1 : WF data1 := ⟨by decide, by decide, by decide, by decide⟩

theorem C3_student_conflict_witness :
    (decode data1 asg0).countP (fun e =>
      (enrolledCourses data1.STUDENT_ELECTIONS 7).contains e.course.id &&
      e.day == 0 && e.slot == 0) ≤ 1 ∧
    studentSum data1 asg0 7 (0, 0) ≤ 1 :=
  ⟨(C3_student_conflict data1 [] [] (some (decode data1 asg0)) (decode data1 asg0)
      wf1 rel1 rfl).1 7 (by decide) 0 0,
   (C3_student_conflict data1 [] [] (some (decode data1 asg0)) (decode data1 asg0)
      wf1 rel1 rfl).2 asg0 (by decide) 7 (by decide) (0, 0) (by decide)⟩

/-- Unfolding of the eligibility filter into its four predicates. -/
theorem eligible_iff (c : Course) (f : Faculty) (r : Room) (t : Slot) :
    eligible c f r t = true ↔
    (f.id ∈ c.preferred_faculty ∧ t ∈ f.availability ∧
      c.enrollment ≤ r.capacity ∧ c.type = r.type) := by
  unfold eligible
  simp [List.contains, Bool.and_eq_true, and_assoc]

/-- C4: with well-formed ids, a decision variable exists for the
quadruple `(course, faculty, room, timeslot)` exactly when all four
eligibility predicates hold jointly: preferred faculty, availability,
sufficient capacity, matching type. -/
theorem C4_variable_iff_eligible (d : SolverData) (hwf : WF d)
    (c : Course) (hc : c ∈ d.COURSES) (f : Faculty) (hf : f ∈ d.FACULTY)
    (r : Room) (hr : r ∈ d.ROOMS) (t : Slot) (ht : t ∈ d.ALL_TIMESLOTS) :
    hasVar d c.id f.id r.id t = true ↔
    (f.id ∈ c.preferred_faculty ∧ t ∈ f.availability ∧
      c.enrollment ≤ r.capacity ∧ c.type = r.type) := by
  rw [hasVar_spec]
  constructor
  · rintro ⟨c', hc', hcid, f', hf', hfid, r', hr', hrid, _, he⟩
    have hcc : c' = c := List.inj_on_of_nodup_map hwf.1 hc' hc hcid
    have hff : f' = f := List.inj_on_of_nodup_map hwf.2.1 hf' hf hfid
    have hrr : r' = r := List.inj_on_of_nodup_map hwf.2.2.1 hr' hr hrid
    subst hcc
    subst hff
    subst hrr
    exact (eligible_iff _ _ _ t).mp he
  · intro hel
    exact ⟨c, hc, rfl, f, hf, rfl, r, hr, rfl, ht, (eligible_iff c f r t).mpr hel⟩

theorem C4_variable_iff_eligible_witness :
    hasVar data0 course0.id faculty0.id room0.id (0, 0) = true :=
  (C4_variable_iff_eligible data0 wf0 course0 (by decide) faculty0 (by decide)
      room0 (by decide) (0, 0) (by decide)).mpr
    ⟨by decide, by decide, by decide, by decide⟩

/-- Origin of a decoded entry: it was produced by some record quadruple
whose variable exists and is true. -/
theorem mem_rawResults (d : SolverData) (A : Asg) (e : Entry) :
    e ∈ rawResults d A ↔
    ∃ t ∈ d.ALL_TIMESLOTS, ∃ c ∈ d.COURSES, ∃ f ∈ d.FACULTY, ∃ r ∈ d.ROOMS,
      (hasVar d c.id f.id r.id t && A (c.id, f.id, r.id, t)) = true ∧
      e = mkEntry d c f r t := by
  unfold rawResults
  simp only [List.mem_flatMap, List.mem_ite_nil_right, List.mem_singleton]

/-- C6: a temporary constraint `(faculty_id, day, slot)` bans that
faculty from that coordinate: no entry of a returned schedule uses the
locked faculty at the locked coordinate. -/
theorem C6_lock_enforcement (d : SolverData) (tc : List TempConstraint)
    (ps : List Entry) (out : Option (List Entry)) (res : List Entry)
    (hrel : generate_schedule_rel d tc ps out) (hout : out = some res)
    (k : TempConstraint) (hk : k ∈ tc) :
    res.countP (fun e =>
      e.faculty.id == k.faculty_id && e.day == k.day && e.slot == k.slot) = 0 := by
  obtain ⟨A, hsat, hres⟩ := satisfies_of_some hrel hout
  subst hres
  rw [countP_decode, List.countP_eq_zero]
  intro e he
  obtain ⟨t, ht, c, hc, f, hf, r, hr, hg, hee⟩ := (mem_rawResults d A e).mp he
  simp only [Bool.and_eq_true] at hg ⊢
  rintro ⟨⟨h1, h2⟩, h3⟩
  rw [hee, mkEntry_faculty_id] at h1
  rw [hee, mkEntry_day] at h2
  rw [hee, mkEntry_slot] at h3
  rw [beq_iff_eq] at h1 h2 h3
  have htk : t = (k.day, k.slot) := by
    rcases t with ⟨td, ts⟩
    simp only at h2 h3
    rw [h2, h3]
  rw [h1, htk] at hg
  have hban := hsat.2.2.2.2 k hk c hc r hr hg.1
  rw [hban] at hg
  exact Bool.false_ne_true hg.2

theorem satisfies2 : satisfies data2 [lock2] asg2 := by
  refine ⟨by decide, by decide, by decide, ?_, by decide⟩
  intro sid h
  simp [data2] at h

theorem rel2 : generate_schedule_rel data2 [lock2] [] (some (decode data2 asg2)) :=
  ⟨CpStatus.feasible, asg2, rfl,
    by intro h; exact absurd h (by decide), fun _ => satisfies2⟩

theorem C6_lock_enforcement_witness :
    (decode data2 asg2).countP (fun e =>
      e.faculty.id == lock2.faculty_id && e.day == lock2.day &&
      e.slot == lock2.slot) = 0 :=
  C6_lock_enforcement data2 [lock2] [] (some (decode data2 asg2))
    (decode data2 asg2) rel2 rfl lock2 (by decide)

/-- C7: a course with no eligible quadruple makes the model
unsatisfiable by construction (its coverage sum is the empty sum), so no
terminal status can return a schedule: `generate_schedule` returns
`None` without raising. -/
theorem C7_zero_eligible_infeasible (d : SolverData) (tc : List TempConstraint)
    (ps : List Entry) (out : Option (List Entry)) (c₀ : Course)
    (hc : c₀ ∈ d.COURSES)
    (hz : ∀ fid rid : Nat, ∀ t : Slot, hasVar d c₀.id fid rid t = false)
    (hrel : generate_schedule_rel d tc ps out) :
    (∀ A : Asg, ¬ satisfies d tc A) ∧ out = none := by
  have hnosat : ∀ A : Asg, ¬ satisfies d tc A := by
    intro A hsat
    have h1 := hsat.1 c₀ hc
    have hv : ∀ (f : Faculty) (r : Room) (t : Slot),
        varVal d A c₀.id f.id r.id t = 0 := by
      intro f r t
      unfold varVal
      rw [hz f.id r.id t]
      simp
    have h0 : coverageSum d A c₀ = 0 := by
      unfold coverageSum
      rw [nsum_congr fun f _ => nsum_congr fun r _ => nsum_congr fun t _ => hv f r t]
      rw [nsum_congr fun f _ => nsum_congr fun r _ => nsum_zero d.ALL_TIMESLOTS]
      rw [nsum_congr fun f _ => nsum_zero d.ROOMS, nsum_zero]
    rw [h0] at h1
    exact Nat.zero_ne_one h1
  refine ⟨hnosat, ?_⟩
  obtain ⟨st, A, hfin, hopt, hfeas⟩ := hrel
  cases st with
  | optimal => exact absurd (hopt rfl).1 (hnosat A)
  | feasible => exact absurd (hfeas rfl) (hnosat A)
  | infeasible => exact hfin
  | unknown => exact hfin

theorem hasVar3_false : ∀ fid rid : Nat, ∀ t : Slot,
    hasVar data3 course3.id fid rid t = false := by
  intro fid rid t
  simp [hasVar, eligible, data3, course3, faculty0, room0]

theorem rel3 : generate_schedule_rel data3 [] [] none :=
  ⟨CpStatus.infeasible, fun _ => false, rfl,
    by intro h; exact absurd h (by decide),
    by intro h; exact absurd h (by decide)⟩

theorem C7_zero_eligible_infeasible_witness :
    ¬ satisfies data3 [] asg0 ∧ (none : Option (List Entry)) = none :=
  ⟨(C7_zero_eligible_infeasible data3 [] [] none course3 (by decide)
      hasVar3_false rel3).1 asg0,
   (C7_zero_eligible_infeasible data3 [] [] none course3 (by decide)
      hasVar3_false rel3).2⟩

theorem entryLE_iff (a b : Entry) :
    entryLE a b = true ↔
    (a.day < b.day ∨ (a.day = b.day ∧ a.slot ≤ b.slot)) := by
  simp [entryLE, Bool.or_eq_true, Bool.and_eq_true, decide_eq_true_eq, beq_iff_eq]

theorem entryLE_trans : ∀ a b c : Entry,
    entryLE a b → entryLE b c → entryLE a c := by
  intro a b c hab hbc
  rw [entryLE_iff] at hab hbc ⊢
  omega

theorem entryLE_total : ∀ a b : Entry, entryLE a b || entryLE b a := by
  intro a b
  rw [Bool.or_eq_true, entryLE_iff, entryLE_iff]
  omega

/-- C8: `generate_schedule` returns `None` exactly when the terminal
status is neither optimal nor feasible; otherwise the returned list is
sorted ascending by `(day, slot)` and every entry carries full course,
faculty and room records drawn from the input lists. -/
theorem C8_output_contract (st : CpStatus) (d : SolverData) (A : Asg) :
    (finish st d A = none ↔ (st ≠ CpStatus.optimal ∧ st ≠ CpStatus.feasible)) ∧
    (∀ res, finish st d A = some res →
      res.Pairwise (fun a b => entryLE a b = true) ∧
      ∀ e ∈ res, e.course ∈ d.COURSES ∧ e.faculty ∈ d.FACULTY ∧ e.room ∈ d.ROOMS) := by
  constructor
  · cases st <;> simp [finish]
  · intro res hres
    have hdec : res = decode d A := by
      cases st with
      | optimal => exact (Option.some.inj hres).symm
      | feasible => exact (Option.some.inj hres).symm
      | infeasible => cases hres
      | unknown => cases hres
    subst hdec
    constructor
    · exact List.sorted_mergeSort entryLE_trans entryLE_total (rawResults d A)
    · intro e he
      have hraw : e ∈ rawResults d A := by
        have := (rawResults d A).mergeSort_perm entryLE
        exact this.mem_iff.mp he
      obtain ⟨t, _, c, hc, f, hf, r, hr, _, hee⟩ := (mem_rawResults d A e).mp hraw
      subst hee
      exact ⟨mapLookup_mem Course.id d.COURSES c.id c hc,
        mapLookup_mem Faculty.id d.FACULTY f.id f hf,
        mapLookup_mem Room.id d.ROOMS r.id r hr⟩

theorem C8_output_contract_witness :
    (decode data0 asg0).Pairwise (fun a b => entryLE a b = true) ∧
    ∀ e ∈ decode data0 asg0, e.course ∈ data0.COURSES ∧
      e.faculty ∈ data0.FACULTY ∧ e.room ∈ data0.ROOMS :=
  (C8_output_contract CpStatus.feasible data0 asg0).2 (decode data0 asg0) rfl

/-! ### Infrastructure for the minimum-change property (C5) -/

theorem nsum_flatMap (l : List α) (h : α → List β) (g : β → Nat) :
    nsum (l.flatMap h) g = nsum l (fun x => nsum (h x) g) := by
  induction l with
  | nil => rfl
  | cons a l ih =>
    rw [List.flatMap_cons, nsum_append, ih, nsum_cons]

theorem nsum_map (l : List α) (h : α → β) (g : β → Nat) :
    nsum (l.map h) g = nsum l (fun x => g (h x)) := by
  unfold nsum
  rw [List.map_map]
  rfl

theorem coverageSum_eq_prod (d : SolverData) (A : Asg) (c : Course) :
    coverageSum d A c =
      nsum (prodFRT d) fun x => varVal d A c.id x.1.id x.2.1.id x.2.2 := by
  unfold coverageSum prodFRT
  rw [nsum_flatMap]
  refine nsum_congr fun f _ => ?_
  rw [nsum_flatMap]
  refine nsum_congr fun r _ => ?_
  rw [nsum_map]

theorem mem_prodFRT (d : SolverData) (f : Faculty) (r : Room) (t : Slot) :
    (f, r, t) ∈ prodFRT d ↔ f ∈ d.FACULTY ∧ r ∈ d.ROOMS ∧ t ∈ d.ALL_TIMESLOTS := by
  unfold prodFRT
  constructor
  · intro hx
    rw [List.mem_flatMap] at hx
    obtain ⟨f', hf', hx⟩ := hx
    rw [List.mem_flatMap] at hx
    obtain ⟨r', hr', hx⟩ := hx
    rw [List.mem_map] at hx
    obtain ⟨t', ht', heq⟩ := hx
    injection heq with h1 h23
    injection h23 with h2 h3
    subst h1
    subst h2
    subst h3
    exact ⟨hf', hr', ht'⟩
  · rintro ⟨hf, hr, ht⟩
    rw [List.mem_flatMap]
    refine ⟨f, hf, ?_⟩
    rw [List.mem_flatMap]
    exact ⟨r, hr, List.mem_map_of_mem _ ht⟩

theorem prodFRT_nodup (d : SolverData) (hwf : WF d) : (prodFRT d).Nodup := by
  have hf : d.FACULTY.Nodup := hwf.2.1.of_map
  have hr : d.ROOMS.Nodup := hwf.2.2.1.of_map
  have ht : d.ALL_TIMESLOTS.Nodup := hwf.2.2.2
  unfold prodFRT
  rw [List.nodup_flatMap]
  constructor
  · intro f _
    rw [List.nodup_flatMap]
    constructor
    · intro r _
      exact ht.map fun t t' h => by simpa using congrArg (fun x => x.2.2) h
    · refine hr.imp ?_
      intro r r' hne x hx hx'
      simp only [List.mem_map] at hx hx'
      obtain ⟨t, _, rfl⟩ := hx
      obtain ⟨t', _, heq⟩ := hx'
      exact hne (by simpa using congrArg (fun x => x.2.1) heq.symm)
  · refine hf.imp ?_
    intro f f' hne x hx hx'
    simp only [List.mem_flatMap, List.mem_map] at hx hx'
    obtain ⟨r, _, t, _, rfl⟩ := hx
    obtain ⟨r', _, t', _, heq⟩ := hx'
    exact hne (by simpa using congrArg (fun x => x.1) heq.symm)

theorem eq_zero_of_nsum_eq_zero (l : List α) (g : α → Nat)
    (h : nsum l g = 0) : ∀ x ∈ l, g x = 0 := by
  induction l with
  | nil => intro x hx; cases hx
  | cons a l ih =>
    rw [nsum_cons] at h
    intro x hx
    rcases List.mem_cons.mp hx with h0 | h0
    · subst h0; omega
    · exact ih (by omega) x h0

/-- If a duplicate-free sum equals `1` and one element already
contributes `1`, every other element contributes `0`. -/
theorem nsum_support_unique (l : List α) [DecidableEq α] (hl : l.Nodup)
    (g : α → Nat) (hs : nsum l g = 1) (x₀ : α) (hx : x₀ ∈ l) (hx1 : g x₀ = 1) :
    ∀ x ∈ l, x ≠ x₀ → g x = 0 := by
  have hperm : List.Perm l (x₀ :: l.erase x₀) := List.perm_cons_erase hx
  have hsplit : nsum l g = g x₀ + nsum (l.erase x₀) g := by
    unfold nsum
    rw [(hperm.map g).sum_eq]
    simp
  rw [hsplit, hx1] at hs
  intro x hxl hne
  exact eq_zero_of_nsum_eq_zero _ g (by omega) x ((List.mem_erase_of_ne hne).mpr hxl)

theorem nsum_le_length (l : List α) (g : α → Nat) (h : ∀ x ∈ l, g x ≤ 1) :
    nsum l g ≤ l.length := by
  induction l with
  | nil => exact Nat.le_refl 0
  | cons a l ih =>
    rw [nsum_cons, List.length_cons]
    have := h a (List.mem_cons_self a l)
    have := ih fun x hx => h x (List.mem_cons_of_mem a hx)
    omega

theorem nsum_all_one (l : List α) (g : α → Nat) (h : ∀ x ∈ l, g x = 1) :
    nsum l g = l.length := by
  induction l with
  | nil => rfl
  | cons a l ih =>
    rw [nsum_cons, List.length_cons, h a (List.mem_cons_self a l),
      ih fun x hx => h x (List.mem_cons_of_mem a hx)]
    omega

theorem nsum_eq_length_forall (l : List α) (g : α → Nat)
    (hle : ∀ x ∈ l, g x ≤ 1) (h : nsum l g = l.length) : ∀ x ∈ l, g x = 1 := by
  induction l with
  | nil => intro x hx; cases hx
  | cons a l ih =>
    rw [nsum_cons, List.length_cons] at h
    have ha := hle a (List.mem_cons_self a l)
    have hrest : nsum l g ≤ l.length :=
      nsum_le_length l g fun x hx => hle x (List.mem_cons_of_mem a hx)
    intro x hx
    rcases List.mem_cons.mp hx with h0 | h0
    · subst h0; omega
    · exact ih (fun y hy => hle y (List.mem_cons_of_mem a hy)) (by omega) x h0

/-- The reward objective can never exceed the number of reward
indicators. -/
theorem rewardScore_le (d : SolverData) (ps : List Entry) (B : Asg) :
    rewardScore d ps B ≤ (rewardKeys d ps).length := by
  unfold rewardScore
  refine nsum_le_length _ _ fun k _ => ?_
  cases B k <;> simp

theorem countP_eq_one_unique (l : List α) (p : α → Bool) (h : l.countP p = 1) :
    ∃ x ∈ l, p x = true ∧ ∀ y ∈ l, p y = true → y = x := by
  induction l with
  | nil => simp at h
  | cons a l ih =>
    by_cases hp : p a = true
    · rw [List.countP_cons_of_pos _ _ hp] at h
      have hz : l.countP p = 0 := by omega
      refine ⟨a, List.mem_cons_self a l, hp, ?_⟩
      intro y hy hpy
      rcases List.mem_cons.mp hy with h0 | h0
      · exact h0
      · exact absurd hpy (List.countP_eq_zero.mp hz y h0)
    · rw [List.countP_cons_of_neg _ _ hp] at h
      obtain ⟨x, hx, hpx, huniq⟩ := ih h
      refine ⟨x, List.mem_cons_of_mem a hx, hpx, ?_⟩
      intro y hy hpy
      rcases List.mem_cons.mp hy with h0 | h0
      · subst h0; exact absurd hpy hp
      · exact huniq y h0 hpy

theorem find?_unique (l : List α) (p : α → Bool) (x : α) (hx : x ∈ l)
    (hpx : p x = true) (huniq : ∀ y ∈ l, p y = true → y = x) :
    l.find? p = some x := by
  cases hf : l.find? p with
  | none =>
    have := List.find?_eq_none.mp hf x hx
    exact absurd hpx this
  | some y =>
    have h1 := List.find?_some hf
    have h2 := List.mem_of_find?_eq_some hf
    rw [huniq y h2 h1]

theorem inducedAsg_iff (ps : List Entry) (k : Key) :
    inducedAsg ps k = true ↔ ∃ e ∈ ps, keyOf e = k := by
  unfold inducedAsg keyOf
  simp [List.any_eq_true]

/-- A course covered exactly once in the prior schedule has a unique
entry there. -/
theorem prior_unique (ps : List Entry) (c : Course)
    (h1 : ps.countP (fun e => e.course.id == c.id) = 1) :
    ∃ e ∈ ps, e.course.id = c.id ∧ ∀ e' ∈ ps, e'.course.id = c.id → e' = e := by
  obtain ⟨e, he, hpe, hu⟩ := countP_eq_one_unique ps _ h1
  rw [beq_iff_eq] at hpe
  refine ⟨e, he, hpe, fun e' he' hc => hu e' he' ?_⟩
  rw [hc]
  exact beq_self_eq_true _

theorem oldKey_eq (ps : List Entry) (c : Course) (e : Entry) (he : e ∈ ps)
    (hec : e.course.id = c.id) (hu : ∀ e' ∈ ps, e'.course.id = c.id → e' = e) :
    oldKey ps c.id = some (e.faculty.id, e.room.id, (e.day, e.slot)) := by
  unfold oldKey
  rw [find?_unique ps.reverse _ e (List.mem_reverse.mpr he)
    (by rw [hec]; exact beq_self_eq_true _)
    (fun y hy hpy => hu y (List.mem_reverse.mp hy) (by rwa [beq_iff_eq] at hpy))]
  rfl

theorem keyOf_mem_rewardKeys (d : SolverData) (ps : List Entry)
    (hps : PriorOK d ps) (c : Course) (hc : c ∈ d.COURSES) (e : Entry)
    (he : e ∈ ps) (hec : e.course.id = c.id)
    (hu : ∀ e' ∈ ps, e'.course.id = c.id → e' = e) :
    keyOf e ∈ rewardKeys d ps := by
  unfold rewardKeys
  rw [List.mem_filterMap]
  refine ⟨c, hc, ?_⟩
  rw [oldKey_eq ps c e he hec hu]
  have hv : hasVar d c.id e.faculty.id e.room.id (e.day, e.slot) = true := by
    have h := (hps e he).2.2.2.2
    rwa [hec] at h
  show (if hasVar d c.id e.faculty.id e.room.id (e.day, e.slot) then
    some (c.id, e.faculty.id, e.room.id, (e.day, e.slot)) else none) = some (keyOf e)
  rw [if_pos hv]
  unfold keyOf
  rw [hec]

/-- Every reward key is the key of some prior entry, hence true under
the replaying assignment. -/
theorem rewardKeys_induced_true (d : SolverData) (ps : List Entry) :
    ∀ k ∈ rewardKeys d ps, inducedAsg ps k = true := by
  intro k hk
  unfold rewardKeys at hk
  rw [List.mem_filterMap] at hk
  obtain ⟨c, hc, hfc⟩ := hk
  unfold oldKey at hfc
  cases hfind : ps.reverse.find? fun e => e.course.id == c.id with
  | none => rw [hfind] at hfc; cases hfc
  | some e =>
    rw [hfind] at hfc
    have he : e ∈ ps := List.mem_reverse.mp (List.mem_of_find?_eq_some hfind)
    have hec : e.course.id = c.id := by
      have := List.find?_some hfind
      rwa [beq_iff_eq] at this
    by_cases hv : hasVar d c.id e.faculty.id e.room.id (e.day, e.slot) = true
    · have hfc' : (if hasVar d c.id e.faculty.id e.room.id (e.day, e.slot) then
          some ((c.id, e.faculty.id, e.room.id, (e.day, e.slot)) : Key)
          else none) = some k := hfc
      rw [if_pos hv] at hfc'
      have hk' := Option.some.inj hfc'
      rw [inducedAsg_iff]
      refine ⟨e, he, ?_⟩
      rw [← hk']
      unfold keyOf
      rw [hec]
    · have hfc' : (if hasVar d c.id e.faculty.id e.room.id (e.day, e.slot) then
          some ((c.id, e.faculty.id, e.room.id, (e.day, e.slot)) : Key)
          else none) = some k := hfc
      rw [if_neg hv] at hfc'
      cases hfc'

theorem score_induced (d : SolverData) (ps : List Entry) :
    rewardScore d ps (inducedAsg ps) = (rewardKeys d ps).length := by
  unfold rewardScore
  refine nsum_all_one _ _ fun k hk => ?_
  rw [rewardKeys_induced_true d ps k hk]
  rfl

/-- At an objective-optimal assignment, when replaying the prior
schedule is itself feasible, every reward indicator is satisfied. -/
theorem optimal_all_rewards (d : SolverData) (ps : List Entry) (A : Asg)
    (hopt : OptimalFor d [] ps A) (hsat0 : satisfies d [] (inducedAsg ps)) :
    ∀ k ∈ rewardKeys d ps, A k = true := by
  have h1 : (rewardKeys d ps).length ≤ rewardScore d ps A := by
    calc (rewardKeys d ps).length
        = rewardScore d ps (inducedAsg ps) := (score_induced d ps).symm
      _ ≤ rewardScore d ps A := hopt.2 (inducedAsg ps) hsat0
  have heq : rewardScore d ps A = (rewardKeys d ps).length :=
    Nat.le_antisymm (rewardScore_le d ps A) h1
  have hall := nsum_eq_length_forall (rewardKeys d ps) (fun k => (A k).toNat)
    (fun k _ => by cases hB : A k <;> simp [hB]) heq
  intro k hk
  have h3 := hall k hk
  cases hA : A k
  · simp [hA] at h3
  · rfl

/-- Under the coverage constraint, once the prior assignment of a course
is held, no other variable of that course can be true. -/
theorem prior_support (d : SolverData) (ps : List Entry) (A : Asg)
    (hwf : WF d) (hps : PriorOK d ps) (hsatA : satisfies d [] A)
    (c : Course) (hc : c ∈ d.COURSES) (e : Entry) (he : e ∈ ps)
    (hec : e.course.id = c.id) (hAe : A (keyOf e) = true) :
    ∀ f ∈ d.FACULTY, ∀ r ∈ d.ROOMS, ∀ t ∈ d.ALL_TIMESLOTS,
      (hasVar d c.id f.id r.id t && A (c.id, f.id, r.id, t)) = true →
      f = e.faculty ∧ r = e.room ∧ t = (e.day, e.slot) := by
  intro f hf r hr t ht hg
  have hx₀mem : (e.faculty, e.room, (e.day, e.slot)) ∈ prodFRT d :=
    (mem_prodFRT d _ _ _).mpr
      ⟨(hps e he).2.1, (hps e he).2.2.1, (hps e he).2.2.2.1⟩
  have hw₀ : varVal d A c.id e.faculty.id e.room.id (e.day, e.slot) = 1 := by
    unfold varVal
    rw [if_pos ?_]
    rw [Bool.and_eq_true]
    constructor
    · have h := (hps e he).2.2.2.2
      rwa [hec] at h
    · have hkey : ((c.id, e.faculty.id, e.room.id, (e.day, e.slot)) : Key) =
          keyOf e := by
        unfold keyOf
        rw [hec]
      rw [hkey]
      exact hAe
  have hcov : nsum (prodFRT d)
      (fun x => varVal d A c.id x.1.id x.2.1.id x.2.2) = 1 := by
    rw [← coverageSum_eq_prod]
    exact hsatA.1 c hc
  by_contra hne
  have hmem : (f, r, t) ∈ prodFRT d := (mem_prodFRT d _ _ _).mpr ⟨hf, hr, ht⟩
  have hneq : (f, r, t) ≠ (e.faculty, e.room, (e.day, e.slot)) := by
    intro h
    injection h with h1 h23
    injection h23 with h2 h3
    exact hne ⟨h1, h2, h3⟩
  have hz := nsum_support_unique (prodFRT d) (prodFRT_nodup d hwf) _ hcov
    (e.faculty, e.room, (e.day, e.slot)) hx₀mem hw₀ (f, r, t) hmem hneq
  have hz' : varVal d A c.id f.id r.id t = 0 := hz
  unfold varVal at hz'
  rw [if_pos hg] at hz'
  exact one_ne_zero hz'

/-- At an optimum of the stability objective over a feasible prior
schedule, every variable guard agrees with the prior-replaying
assignment. -/
theorem guard_agree (d : SolverData) (ps : List Entry) (A : Asg)
    (hwf : WF d) (hps : PriorOK d ps)
    (hcount : ∀ c ∈ d.COURSES, ps.countP (fun e => e.course.id == c.id) = 1)
    (hsat0 : satisfies d [] (inducedAsg ps)) (hopt : OptimalFor d [] ps A) :
    ∀ c ∈ d.COURSES, ∀ f ∈ d.FACULTY, ∀ r ∈ d.ROOMS, ∀ t ∈ d.ALL_TIMESLOTS,
      (hasVar d c.id f.id r.id t && A (c.id, f.id, r.id, t)) =
      (hasVar d c.id f.id r.id t && inducedAsg ps (c.id, f.id, r.id, t)) := by
  intro c hc f hf r hr t ht
  cases hv : hasVar d c.id f.id r.id t with
  | false => simp
  | true =>
    simp only [Bool.true_and]
    obtain ⟨e, he, hec, hu⟩ := prior_unique ps c (hcount c hc)
    have hAe : A (keyOf e) = true :=
      optimal_all_rewards d ps A hopt hsat0 (keyOf e)
        (keyOf_mem_rewardKeys d ps hps c hc e he hec hu)
    by_cases hrec : f = e.faculty ∧ r = e.room ∧ t = (e.day, e.slot)
    · obtain ⟨h1, h2, h3⟩ := hrec
      subst h1
      subst h2
      subst h3
      have hkey : ((c.id, e.faculty.id, e.room.id, (e.day, e.slot)) : Key) =
          keyOf e := by
        unfold keyOf
        rw [hec]
      rw [hkey, hAe, (inducedAsg_iff ps (keyOf e)).mpr ⟨e, he, rfl⟩]
    · have hA0 : A (c.id, f.id, r.id, t) = false := by
        cases hA : A (c.id, f.id, r.id, t) with
        | false => rfl
        | true =>
          have hsupp := prior_support d ps A hwf hps hopt.1 c hc e he hec hAe
            f hf r hr t ht (by rw [hv, hA]; rfl)
          exact absurd hsupp hrec
      have hI0 : inducedAsg ps (c.id, f.id, r.id, t) = false := by
        cases hI : inducedAsg ps (c.id, f.id, r.id, t) with
        | false => rfl
        | true =>
          obtain ⟨e', he', hke⟩ := (inducedAsg_iff ps _).mp hI
          have hc1 : e'.course.id = c.id := congrArg (fun k => k.1) hke
          have hee : e' = e := hu e' he' hc1
          subst hee
          have hf1 : e'.faculty.id = f.id := congrArg (fun k => k.2.1) hke
          have hr1 : e'.room.id = r.id := congrArg (fun k => k.2.2.1) hke
          have ht1 : (e'.day, e'.slot) = t := congrArg (fun k => k.2.2.2) hke
          have hf2 : f = e'.faculty :=
            List.inj_on_of_nodup_map hwf.2.1 hf (hps e' he').2.1 hf1.symm
          have hr2 : r = e'.room :=
            List.inj_on_of_nodup_map hwf.2.2.1 hr (hps e' he').2.2.1 hr1.symm
          exact absurd ⟨hf2, hr2, ht1.symm⟩ hrec
      rw [hA0, hI0]

theorem flatMap_congr {l : List α} {f g : α → List β}
    (h : ∀ x ∈ l, f x = g x) : l.flatMap f = l.flatMap g := by
  induction l with
  | nil => rfl
  | cons a l ih =>
    rw [List.flatMap_cons, List.flatMap_cons, h a (List.mem_cons_self a l),
      ih fun x hx => h x (List.mem_cons_of_mem a hx)]

theorem rawResults_agree (d : SolverData) (ps : List Entry) (A : Asg)
    (hwf : WF d) (hps : PriorOK d ps)
    (hcount : ∀ c ∈ d.COURSES, ps.countP (fun e => e.course.id == c.id) = 1)
    (hsat0 : satisfies d [] (inducedAsg ps)) (hopt : OptimalFor d [] ps A) :
    rawResults d A = rawResults d (inducedAsg ps) := by
  unfold rawResults
  refine flatMap_congr fun t ht => flatMap_congr fun c hc =>
    flatMap_congr fun f hf => flatMap_congr fun r hr => ?_
  rw [guard_agree d ps A hwf hps hcount hsat0 hopt c hc f hf r hr t ht]

theorem mkEntry_recon (d : SolverData) (hwf : WF d) (e : Entry)
    (hc : e.course ∈ d.COURSES) (hf : e.faculty ∈ d.FACULTY)
    (hr : e.room ∈ d.ROOMS) :
    mkEntry d e.course e.faculty e.room (e.day, e.slot) = e := by
  unfold mkEntry
  rw [mapLookup_self Course.id d.COURSES hwf.1 e.course hc e.course,
    mapLookup_self Faculty.id d.FACULTY hwf.2.1 e.faculty hf e.faculty,
    mapLookup_self Room.id d.ROOMS hwf.2.2.1 e.room hr e.room]

/-- When replaying the prior schedule satisfies the hard constraints,
its decoded raw result list is a permutation of the prior schedule. -/
theorem rawResults_induced_perm (d : SolverData) (ps : List Entry)
    (hwf : WF d) (hps : PriorOK d ps)
    (hcount : ∀ c ∈ d.COURSES, ps.countP (fun e => e.course.id == c.id) = 1)
    (hsat0 : satisfies d [] (inducedAsg ps)) :
    List.Perm (rawResults d (inducedAsg ps)) ps := by
  rw [List.perm_iff_count]
  intro a
  by_cases ha : a ∈ ps
  · have hmem : a ∈ rawResults d (inducedAsg ps) := by
      rw [mem_rawResults]
      refine ⟨(a.day, a.slot), (hps a ha).2.2.2.1, a.course, (hps a ha).1,
        a.faculty, (hps a ha).2.1, a.room, (hps a ha).2.2.1, ?_, ?_⟩
      · rw [Bool.and_eq_true]
        exact ⟨(hps a ha).2.2.2.2, (inducedAsg_iff ps _).mpr ⟨a, ha, rfl⟩⟩
      · exact (mkEntry_recon d hwf a (hps a ha).1 (hps a ha).2.1
          (hps a ha).2.2.1).symm
    have hub : ∀ l : List Entry,
        l.countP (fun e => e.course.id == a.course.id) = 1 →
        List.count a l ≤ 1 := by
      intro l hl
      calc List.count a l = l.countP (· == a) := List.count_eq_countP a l
        _ ≤ l.countP (fun e => e.course.id == a.course.id) := by
            refine List.countP_mono_left fun x _ hxa => ?_
            rw [beq_iff_eq] at hxa
            rw [hxa]
            exact beq_self_eq_true _
        _ = 1 := hl
    have hraw1 : (rawResults d (inducedAsg ps)).countP
        (fun e => e.course.id == a.course.id) = 1 := by
      rw [count_course d (inducedAsg ps) hwf a.course (hps a ha).1]
      exact hsat0.1 a.course (hps a ha).1
    rw [Nat.le_antisymm (hub _ hraw1) (List.one_le_count_iff.mpr hmem),
      Nat.le_antisymm (hub ps (hcount a.course (hps a ha).1))
        (List.one_le_count_iff.mpr ha)]
  · have hnraw : a ∉ rawResults d (inducedAsg ps) := by
      intro hmem
      obtain ⟨t, ht, c, hc, f, hf, r, hr, hg, hee⟩ :=
        (mem_rawResults _ _ _).mp hmem
      rw [Bool.and_eq_true] at hg
      obtain ⟨e', he', hke⟩ := (inducedAsg_iff ps _).mp hg.2
      have h1 : e'.course.id = c.id := congrArg (fun k => k.1) hke
      have h4 : (e'.day, e'.slot) = t := congrArg (fun k => k.2.2.2) hke
      have hc2 : mapLookup Course.id d.COURSES c.id c = e'.course := by
        rw [← h1]
        exact mapLookup_self Course.id d.COURSES hwf.1 e'.course (hps e' he').1 c
      have h2 : e'.faculty.id = f.id := congrArg (fun k => k.2.1) hke
      have h3 : e'.room.id = r.id := congrArg (fun k => k.2.2.1) hke
      have hf2 : mapLookup Faculty.id d.FACULTY f.id f = e'.faculty := by
        rw [← h2]
        exact mapLookup_self Faculty.id d.FACULTY hwf.2.1 e'.faculty
          (hps e' he').2.1 f
      have hr2 : mapLookup Room.id d.ROOMS r.id r = e'.room := by
        rw [← h3]
        exact mapLookup_self Room.id d.ROOMS hwf.2.2.1 e'.room
          (hps e' he').2.2.1 r
      have hae : a = e' := by
        rw [hee]
        unfold mkEntry
        rw [hc2, hf2, hr2, ← h4]
      exact ha (hae ▸ he')
    rw [List.count_eq_zero.mpr hnraw, List.count_eq_zero.mpr ha]

/-- C5 (amended): with a feasible prior schedule drawn from the same
data, no locks, and an objective-optimal solve, the returned schedule is
a permutation of the prior one: it contains exactly the prior entries,
re-sorted ascending by `(day, slot)`. -/
theorem C5_minimum_change (d : SolverData) (ps : List Entry) (hwf : WF d)
    (hps : PriorOK d ps)
    (hcount : ∀ c ∈ d.COURSES, ps.countP (fun e => e.course.id == c.id) = 1)
    (hsat0 : satisfies d [] (inducedAsg ps)) (A : Asg)
    (hopt : OptimalFor d [] ps A) :
    List.Perm (decode d A) ps := by
  have hagree : rawResults d A = rawResults d (inducedAsg ps) :=
    rawResults_agree d ps A hwf hps hcount hsat0 hopt
  unfold decode
  refine ((rawResults d A).mergeSort_perm entryLE).trans ?_
  rw [hagree]
  exact rawResults_induced_perm d ps hwf hps hcount hsat0

theorem sat5 : satisfies data5 [] (inducedAsg prior5) := by
  refine ⟨by decide, by decide, by decide, ?_, ?_⟩
  · intro sid h
    simp [data5] at h
  · intro k hk
    simp at hk

theorem opt5 : OptimalFor data5 [] prior5 (inducedAsg prior5) :=
  ⟨sat5, fun B _ => Nat.le_trans (rewardScore_le data5 prior5 B) (by decide)⟩

theorem decode5 : decode data5 (inducedAsg prior5) = [entry5a, entry5b] := by
  unfold decode
  have hraw : rawResults data5 (inducedAsg prior5) = [entry5a, entry5b] := by
    decide
  rw [hraw]
  exact List.mergeSort_of_sorted (by decide)

/-- C5 as stated is false: re-solving from a feasible prior schedule
returns the prior entries re-sorted by `(day, slot)`, which differs from
a prior list whose equal-coordinate entries are ordered differently. -/
theorem C5_minimum_change_counterexample :
    WF data5 ∧ PriorOK data5 prior5 ∧
    (∀ c ∈ data5.COURSES, prior5.countP (fun e => e.course.id == c.id) = 1) ∧
    satisfies data5 [] (inducedAsg prior5) ∧
    OptimalFor data5 [] prior5 (inducedAsg prior5) ∧
    decode data5 (inducedAsg prior5) ≠ prior5 := by
  refine ⟨⟨by decide, by decide, by decide, by decide⟩,
    by unfold PriorOK; decide, by decide, sat5, opt5, ?_⟩
  rw [decode5]
  decide

theorem sat0p : satisfies data0 [] (inducedAsg prior0) := by
  refine ⟨by decide, by decide, by decide, ?_, ?_⟩
  · intro sid h
    simp [data0] at h
  · intro k hk
    simp at hk

theorem opt0p : OptimalFor data0 [] prior0 (inducedAsg prior0) :=
  ⟨sat0p, fun B _ => Nat.le_trans (rewardScore_le data0 prior0 B) (by decide)⟩

theorem C5_minimum_change_witness :
    List.Perm (decode data0 (inducedAsg prior0)) prior0 :=
  C5_minimum_change data0 prior0 wf0 (by unfold PriorOK; decide) (by decide)
    sat0p (inducedAsg prior0) opt0p

/-! ### The timeslot index (C9) -/

theorem dayMap_inj {a b : String} {x : Nat} (ha : dayMap a = some x)
    (hb : dayMap b = some x) : a = b := by
  unfold dayMap at ha hb
  split_ifs at ha hb <;> simp_all <;> omega

/-- The `k`-th record of day `day` (in filtered order) is mapped to slot
`ctr day + k`. -/
theorem buildTimeslotMap_nth (rows : List TsRecord) (name : String) (day : Nat)
    (hday : dayMap name = some day) :
    ∀ (ctr : Nat → Nat) (k : Nat)
      (h : k < (rows.filter fun r => r.day_of_week == name).length),
      (((rows.filter fun r => r.day_of_week == name).get ⟨k, h⟩).id,
        (day, ctr day + k)) ∈ buildTimeslotMap rows ctr := by
  induction rows with
  | nil =>
    intro ctr k h
    simp at h
  | cons r rest ih =>
    intro ctr k h
    by_cases hr : (r.day_of_week == name) = true
    · have hrname : r.day_of_week = name := by rwa [beq_iff_eq] at hr
      have hrd : dayMap r.day_of_week = some day := by rw [hrname]; exact hday
      have hfil : (r :: rest).filter (fun q => q.day_of_week == name) =
          r :: rest.filter (fun q => q.day_of_week == name) :=
        List.filter_cons_of_pos hr
      simp only [buildTimeslotMap, hrd]
      cases k with
      | zero =>
        have hg : (((r :: rest).filter fun q => q.day_of_week == name).get
            ⟨0, h⟩) = r := by
          simp [hfil, List.get_eq_getElem]
        rw [hg, Nat.add_zero]
        exact List.mem_cons_self _ _
      | succ k' =>
        have hlt : k' < (rest.filter fun q => q.day_of_week == name).length := by
          rw [hfil] at h
          simpa using Nat.lt_of_succ_lt_succ h
        have hg : (((r :: rest).filter fun q => q.day_of_week == name).get
            ⟨k' + 1, h⟩) =
            ((rest.filter fun q => q.day_of_week == name).get ⟨k', hlt⟩) := by
          simp [hfil, List.get_eq_getElem]
        rw [hg]
        refine List.mem_cons_of_mem _ ?_
        have hmem := ih (bumpCounter ctr day) k' hlt
        have hbump : bumpCounter ctr day day = ctr day + 1 := by
          unfold bumpCounter
          rw [if_pos rfl]
        rw [hbump] at hmem
        have harr : ctr day + 1 + k' = ctr day + (k' + 1) := by omega
        rw [harr] at hmem
        exact hmem
    · have hrname : r.day_of_week ≠ name := by
        intro he
        rw [he] at hr
        exact hr (beq_self_eq_true name)
      have hfil : (r :: rest).filter (fun q => q.day_of_week == name) =
          rest.filter (fun q => q.day_of_week == name) :=
        List.filter_cons_of_neg (by simpa using hr)
      have hlt : k < (rest.filter fun q => q.day_of_week == name).length := by
        rw [hfil] at h
        exact h
      have hg : (((r :: rest).filter fun q => q.day_of_week == name).get
          ⟨k, h⟩) = ((rest.filter fun q => q.day_of_week == name).get ⟨k, hlt⟩) := by
        simp [hfil, List.get_eq_getElem]
      rw [hg]
      cases hdm : dayMap r.day_of_week with
      | none =>
        simp only [buildTimeslotMap, hdm]
        exact ih ctr k hlt
      | some d' =>
        have hne : day ≠ d' := by
          intro he
          exact hrname (dayMap_inj hdm (he ▸ hday))
        simp only [buildTimeslotMap, hdm]
        refine List.mem_cons_of_mem _ ?_
        have hmem := ih (bumpCounter ctr d') k hlt
        have hbump : bumpCounter ctr d' day = ctr day := by
          unfold bumpCounter
          rw [if_neg hne]
        rw [hbump] at hmem
        exact hmem

theorem buildTimeslotMap_fst_sublist (rows : List TsRecord) (ctr : Nat → Nat) :
    List.Sublist ((buildTimeslotMap rows ctr).map Prod.fst)
      (rows.map TsRecord.id) := by
  induction rows generalizing ctr with
  | nil => exact List.Sublist.refl _
  | cons r rest ih =>
    cases hdm : dayMap r.day_of_week with
    | none =>
      simp only [buildTimeslotMap, hdm, List.map_cons]
      exact (ih ctr).cons _
    | some d =>
      simp only [buildTimeslotMap, hdm, List.map_cons]
      exact (ih (bumpCounter ctr d)).cons₂ _

/-- Every binding of the timeslot map comes from a source row with a
recognized weekday. -/
theorem buildTimeslotMap_mem_src (rows : List TsRecord) (ctr : Nat → Nat) :
    ∀ p ∈ buildTimeslotMap rows ctr,
      ∃ row ∈ rows, row.id = p.1 ∧ dayMap row.day_of_week = some p.2.1 := by
  induction rows generalizing ctr with
  | nil => intro p hp; cases hp
  | cons r rest ih =>
    intro p hp
    cases hdm : dayMap r.day_of_week with
    | none =>
      simp only [buildTimeslotMap, hdm] at hp
      obtain ⟨row, hrow, h1, h2⟩ := ih ctr p hp
      exact ⟨row, List.mem_cons_of_mem r hrow, h1, h2⟩
    | some d =>
      simp only [buildTimeslotMap, hdm] at hp
      rcases List.mem_cons.mp hp with h0 | h0
      · subst h0
        exact ⟨r, List.mem_cons_self r rest, rfl, hdm⟩
      · obtain ⟨row, hrow, h1, h2⟩ := ih (bumpCounter ctr d) p h0
        exact ⟨row, List.mem_cons_of_mem r hrow, h1, h2⟩

/-- Slots assigned for a day never drop below the current counter. -/
theorem buildTimeslotMap_ctr_le (rows : List TsRecord) (ctr : Nat → Nat) :
    ∀ p ∈ buildTimeslotMap rows ctr, ctr p.2.1 ≤ p.2.2 := by
  induction rows generalizing ctr with
  | nil => intro p hp; cases hp
  | cons r rest ih =>
    intro p hp
    cases hdm : dayMap r.day_of_week with
    | none =>
      simp only [buildTimeslotMap, hdm] at hp
      exact ih ctr p hp
    | some d =>
      simp only [buildTimeslotMap, hdm] at hp
      rcases List.mem_cons.mp hp with h0 | h0
      · subst h0
        exact Nat.le_refl _
      · have h1 := ih (bumpCounter ctr d) p h0
        have h2 : ctr p.2.1 ≤ bumpCounter ctr d p.2.1 := by
          unfold bumpCounter
          by_cases hx : p.2.1 = d
          · rw [if_pos hx, hx]
            exact Nat.le_succ _
          · rw [if_neg hx]
        exact Nat.le_trans h2 h1

/-- No two bindings of the timeslot map share a coordinate. -/
theorem buildTimeslotMap_snd_nodup (rows : List TsRecord) (ctr : Nat → Nat) :
    ((buildTimeslotMap rows ctr).map Prod.snd).Nodup := by
  induction rows generalizing ctr with
  | nil => exact List.nodup_nil
  | cons r rest ih =>
    cases hdm : dayMap r.day_of_week with
    | none =>
      simp only [buildTimeslotMap, hdm]
      exact ih ctr
    | some d =>
      simp only [buildTimeslotMap, hdm, List.map_cons]
      rw [List.nodup_cons]
      refine ⟨?_, ih (bumpCounter ctr d)⟩
      intro hmem
      rw [List.mem_map] at hmem
      obtain ⟨p, hp, hsnd⟩ := hmem
      have h1 := buildTimeslotMap_ctr_le rest (bumpCounter ctr d) p hp
      rw [hsnd] at h1
      have h2 : bumpCounter ctr d d = ctr d + 1 := by
        unfold bumpCounter
        rw [if_pos rfl]
      rw [h2] at h1
      exact Nat.not_succ_le_self (ctr d) h1

theorem tsLookup_of_mem (m : List (Nat × Slot))
    (hnd : (m.map Prod.fst).Nodup) (p : Nat × Slot) (hp : p ∈ m) :
    tsLookup m p.1 = some p.2 := by
  unfold tsLookup
  cases hf : m.reverse.find? fun q => q.1 == p.1 with
  | none =>
    exfalso
    have h := List.find?_eq_none.mp hf p (List.mem_reverse.mpr hp)
    simp at h
  | some q =>
    have hq : q ∈ m := List.mem_reverse.mp (List.mem_of_find?_eq_some hf)
    have hqp : q.1 = p.1 := by simpa using List.find?_some hf
    rw [List.inj_on_of_nodup_map hnd hq hp hqp]
    rfl

theorem tsLookup_eq_none (m : List (Nat × Slot)) (i : Nat)
    (h : ∀ p ∈ m, p.1 ≠ i) : tsLookup m i = none := by
  unfold tsLookup
  cases hf : m.reverse.find? fun q => q.1 == i with
  | none => rfl
  | some q =>
    exfalso
    have hq : q ∈ m := List.mem_reverse.mp (List.mem_of_find?_eq_some hf)
    have hqp : q.1 = i := by simpa using List.find?_some hf
    exact h q hq hqp

theorem tsReverseLookup_of_mem (m : List (Nat × Slot))
    (hnd : (m.map Prod.snd).Nodup) (p : Nat × Slot) (hp : p ∈ m) :
    tsReverseLookup m p.2 = some p.1 := by
  unfold tsReverseLookup
  cases hf : m.reverse.find? fun q => q.2 == p.2 with
  | none =>
    exfalso
    have h := List.find?_eq_none.mp hf p (List.mem_reverse.mpr hp)
    simp at h
  | some q =>
    have hq : q ∈ m := List.mem_reverse.mp (List.mem_of_find?_eq_some hf)
    have hqp : q.2 = p.2 := by simpa using List.find?_some hf
    rw [List.inj_on_of_nodup_map hnd hq hp hqp]
    rfl

/-- C9: for presorted rows with unique ids, the timeslot index maps the
`k`-th weekday record of day `D` to coordinate `(D, k)`, skips
non-weekday rows without consuming a coordinate, and is a bijection onto
the produced coordinates (the reverse map undoes the forward map). -/
theorem C9_timeslot_index (rows : List TsRecord)
    (hids : (rows.map TsRecord.id).Nodup) (hsorted : Presorted rows) :
    (∀ name day, dayMap name = some day →
      ∀ (k : Nat) (h : k < (rows.filter fun r => r.day_of_week == name).length),
        tsLookup (timeslotIdMap rows)
          (((rows.filter fun r => r.day_of_week == name).get ⟨k, h⟩).id) =
          some (day, k)) ∧
    (∀ r ∈ rows, dayMap r.day_of_week = none →
      tsLookup (timeslotIdMap rows) r.id = none) ∧
    (∀ (i : Nat) (t : Slot), tsLookup (timeslotIdMap rows) i = some t →
      tsReverseLookup (timeslotIdMap rows) t = some i) := by
  have hnd1 : ((timeslotIdMap rows).map Prod.fst).Nodup :=
    hids.sublist (buildTimeslotMap_fst_sublist rows fun _ => 0)
  have hnd2 : ((timeslotIdMap rows).map Prod.snd).Nodup :=
    buildTimeslotMap_snd_nodup rows fun _ => 0
  refine ⟨?_, ?_, ?_⟩
  · intro name day hday k h
    have hmem := buildTimeslotMap_nth rows name day hday (fun _ => 0) k h
    rw [Nat.zero_add] at hmem
    exact tsLookup_of_mem (timeslotIdMap rows) hnd1 _ hmem
  · intro r hr hnone
    refine tsLookup_eq_none (timeslotIdMap rows) r.id fun p hp hpi => ?_
    obtain ⟨row, hrow, hid, hdm⟩ :=
      buildTimeslotMap_mem_src rows (fun _ => 0) p hp
    have : row = r :=
      List.inj_on_of_nodup_map hids hrow hr (by rw [hid, hpi])
    rw [this, hnone] at hdm
    cases hdm
  · intro i t hlook
    unfold tsLookup at hlook
    cases hf : (timeslotIdMap rows).reverse.find? fun q => q.1 == i with
    | none => rw [hf] at hlook; cases hlook
    | some q =>
      rw [hf] at hlook
      have hq : q ∈ timeslotIdMap rows :=
        List.mem_reverse.mp (List.mem_of_find?_eq_some hf)
      have hqi : q.1 = i := by simpa using List.find?_some hf
      have hqt : q.2 = t := Option.some.inj hlook
      rw [← hqt, ← hqi]
      exact tsReverseLookup_of_mem (timeslotIdMap rows) hnd2 q hq

theorem C9_timeslot_index_witness :
    tsLookup (timeslotIdMap rows9) 11 = some (0, 1) ∧
    tsLookup (timeslotIdMap rows9) 13 = none ∧
    tsReverseLookup (timeslotIdMap rows9) (1, 0) = some 12 := by
  have h := C9_timeslot_index rows9 (by decide) (by unfold Presorted; decide)
  refine ⟨?_, ?_, ?_⟩
  · exact h.1 "Mon" 0 rfl 1 (by decide)
  · exact h.2.1 { id := 13, day_of_week := "Sat", start_time := 9 }
      (by decide) rfl
  · exact h.2.2 12 (1, 0) (by decide)

end Timetable
